import Mathlib

/-!
# Cover generator: line wrapping, text layout and gradient background

A shallow embedding of `main.go` (package `main` of the cover generator) and the
properties of its line wrapper, its layout arithmetic and its gradient.

Modelling conventions.

* A Go `string` holding valid UTF-8 is the list of its code points, `List Char`:
  this is what `for _, ch := range text` and `[]rune(text)` produce.  `len(s)` on a
  string is its number of UTF-8 bytes (`strLen`), `len([]rune(s))` is `List.length`.
* Go `int` is `Int`; `/` on `int` truncates towards zero (`Int.tdiv`).  The product
  `maxWidth*9` of `wrapText`, the one multiplication of a parameter, wraps around at 64
  bits (`wrap64`, the `int` of a 64-bit platform); the other quantities are sums of
  advances and of image dimensions, which stay far inside 64 bits.
* The font collaborator (`opentype.NewFace`, `face.GlyphAdvance`, `advance.Ceil`) is
  not part of the repository: a `Font` is what `NewFace` answers at each size, and a
  `Face` is the answer of `GlyphAdvance` followed by `Ceil`: `none` when the glyph is
  missing (`ok == false`), otherwise the advance in whole pixels.  The advance of an
  OpenType glyph is an unsigned 16-bit number of font units scaled by a positive
  factor, so its `Ceil` is a natural number.
* A `float64` is the rational number it denotes, and each `float64` operation is the
  exact operation followed by the rounding `fl` to the nearest number with a 53-bit
  significand, ties to even (IEEE 754 binary64; the operations are rounded one by one,
  as the Go compiler does where it does not fuse a multiplication with an addition).
  The exponent range is not modelled: the values of the program lie far inside it.
-/

namespace CoverGen

/-! ## Strings -/

/-- Number of bytes of the UTF-8 encoding of a code point (`utf8.RuneLen`). -/
def runeLen (ch : Char) : Nat :=
  if ch.toNat < 0x80 then 1
  else if ch.toNat < 0x800 then 2
  else if ch.toNat < 0x10000 then 3
  else 4

/-- Go `len(s)` of a string: the number of bytes of its UTF-8 encoding. -/
def strLen (s : List Char) : Nat :=
  (s.map runeLen).sum

/-! ## The font collaborator -/

/-- A font face: `GlyphAdvance(ch)` followed by `Ceil()`; `none` stands for `ok == false`. -/
structure Face where
  glyphAdvance : Char → Option Nat

/-- A parsed font: `opentype.NewFace` at a size either fails (`none`) or gives a face. -/
structure Font where
  newFace : ℚ → Option Face

/-- Width of a text as `drawChineseText` and the author placement measure it:
the sum of `advance.Ceil()` over the characters that have a glyph. -/
def textWidth (face : Face) (text : List Char) : Int :=
  text.foldl
    (fun acc ch =>
      match face.glyphAdvance ch with
      | some advance => acc + (advance : Int)
      | none => acc)
    0

/-! ## `isPunctuation` -/

/-- The string scanned by `isPunctuation`. -/
def punctuation : List Char := "，。；：！？、（）《》【】「」".data

/-- Source `isPunctuation`: is `ch` one of the characters of `punctuation`. -/
def isPunctuation (ch : Char) : Bool :=
  punctuation.any (fun p => ch == p)

/-! ## `wrapText` -/

/-- The variables of the wrapping loop of `wrapText`. -/
structure WrapState where
  lines : List (List Char)
  currentLine : List Char
  currentWidth : Int

/-- The three statements `lines = append(lines, currentLine.String())`,
`currentLine.Reset()`, `currentWidth = 0`. -/
def WrapState.flush (st : WrapState) : WrapState :=
  { lines := st.lines ++ [st.currentLine], currentLine := [], currentWidth := 0 }

/-- The width test of the loop body: does adding the character overflow a non-empty line. -/
def overflowCond (maxWidth : Int) (st : WrapState) (charWidth : Int) : Bool :=
  decide (st.currentWidth + charWidth > maxWidth) && decide (strLen st.currentLine > 0)

/-- The value of a 64-bit `int` expression whose exact value is `x`: two's complement
wrap-around into `-2^63 .. 2^63 - 1`. -/
def wrap64 (x : Int) : Int :=
  (x + 2 ^ 63) % 2 ^ 64 - 2 ^ 63

/-- The punctuation test of the loop body; the product `maxWidth*9` is a 64-bit `int`. -/
def punctCond (maxWidth : Int) (st : WrapState) (ch : Char) (charWidth : Int) : Bool :=
  decide (strLen st.currentLine > 0) && isPunctuation ch &&
    decide (st.currentWidth + charWidth > Int.tdiv (wrap64 (maxWidth * 9)) 10)

/-- One iteration of `for _, ch := range text` in `wrapText`. -/
def wrapStep (face : Face) (maxWidth : Int) (st : WrapState) (ch : Char) : WrapState :=
  match face.glyphAdvance ch with
  | none => st
  | some advance =>
    let charWidth : Int := (advance : Int)
    let st1 := if overflowCond maxWidth st charWidth then st.flush else st
    let st2 := if punctCond maxWidth st1 ch charWidth then st1.flush else st1
    { st2 with
      currentLine := st2.currentLine ++ [ch]
      currentWidth := st2.currentWidth + charWidth }

/-- The whole wrapping loop, run from the initial (empty) variables. -/
def wrapLoop (face : Face) (maxWidth : Int) (text : List Char) : WrapState :=
  text.foldl (wrapStep face maxWidth) { lines := [], currentLine := [], currentWidth := 0 }

/-- The lines after the loop and the final `if currentLine.Len() > 0` flush:
the result of the greedy pass. -/
def greedyLines (face : Face) (maxWidth : Int) (text : List Char) : List (List Char) :=
  let st := wrapLoop face maxWidth text
  if strLen st.currentLine > 0 then st.lines ++ [st.currentLine] else st.lines

/-- The test on `textRunes[i]` in the forced split. -/
def isSplitPoint (ch : Char) : Bool :=
  isPunctuation ch || ch == ' ' || ch == '、' || ch == '，' || ch == '。'

/-- The loop `for i := mid; i < len(textRunes); i++` of the forced split, with `rest`
the runes from index `i` on: the index at which the loop returns, if it does. -/
def findSplit : Nat → List Char → Option Nat
  | _, [] => none
  | i, ch :: rest => if isSplitPoint ch then some i else findSplit (i + 1) rest

/-- The body of `if len(lines) == 1 && len([]rune(text)) > 15`. -/
def forcedSplit (textRunes : List Char) : List (List Char) :=
  let mid := textRunes.length / 2
  match findSplit mid (textRunes.drop mid) with
  | some i => [textRunes.take (i + 1), textRunes.drop (i + 1)]
  | none => [textRunes.take mid, textRunes.drop mid]

/-- The condition of the forced-split branch. -/
def forcedSplitCond (lines : List (List Char)) (text : List Char) : Bool :=
  decide (lines.length = 1) && decide (text.length > 15)

/-- Source `wrapText`. -/
def wrapText (text : List Char) (fontSize : ℚ) (maxWidth : Int) (fnt : Font) :
    List (List Char) :=
  match fnt.newFace fontSize with
  | none => [text]
  | some face =>
    let lines := greedyLines face maxWidth text
    if forcedSplitCond lines text then forcedSplit text else lines

/-! ## Colours and the pixel buffer -/

/-- A `color.RGBA`: four 8-bit channels. -/
structure RGBA where
  R : Fin 256
  G : Fin 256
  B : Fin 256
  A : Fin 256
deriving DecidableEq, Repr

/-- An `*image.RGBA` whose bounds are `image.Rect(0, 0, width, height)`, as
`generateChineseCover` allocates it; `pix x y` is the colour stored at `(x, y)`. -/
structure Image where
  width : Nat
  height : Nat
  pix : Nat → Nat → RGBA

/-- Result of `image.NewRGBA(image.Rect(0, 0, width, height))`: every channel zero. -/
def newRGBA (width height : Nat) : Image :=
  { width := width, height := height, pix := fun _ _ => ⟨0, 0, 0, 0⟩ }

/-- The method `img.Set(x, y, c)` with a `color.RGBA`: stores `c` when the point lies in
the bounds and does nothing otherwise. -/
def Image.set (img : Image) (x y : Nat) (c : RGBA) : Image :=
  if x < img.width ∧ y < img.height then
    { img with pix := fun i j => if i = x ∧ j = y then c else img.pix i j }
  else img

/-! ## `float64` arithmetic -/

/-- The nearest integer, a tie going to the even one. -/
def roundEven (x : ℚ) : ℤ :=
  if x - ⌊x⌋ < 1 / 2 then ⌊x⌋
  else if 1 / 2 < x - ⌊x⌋ then ⌊x⌋ + 1
  else if ⌊x⌋ % 2 = 0 then ⌊x⌋ else ⌊x⌋ + 1

/-- Rounding of an exact value to `float64`: the significand is brought to 53 bits,
`2^52 <= |q| / 2^e < 2^53`, and rounded to the nearest integer, ties to even. -/
def fl (q : ℚ) : ℚ :=
  if q = 0 then 0
  else (roundEven (q / 2 ^ (Int.log 2 |q| - 52)) : ℚ) * 2 ^ (Int.log 2 |q| - 52)

/-- The `float64` operation `a + b`. -/
def fadd (a b : ℚ) : ℚ := fl (a + b)

/-- The `float64` operation `a - b`. -/
def fsub (a b : ℚ) : ℚ := fl (a - b)

/-- The `float64` operation `a * b`. -/
def fmul (a b : ℚ) : ℚ := fl (a * b)

/-- The `float64` operation `a / b`. -/
def fdiv (a b : ℚ) : ℚ := fl (a / b)

/-! ## `drawRandomGradientBackground` -/

/-- The palette `colorPairs`. -/
def colorPairs : List (RGBA × RGBA) :=
  [ (⟨41, 128, 185, 255⟩, ⟨39, 174, 96, 255⟩),
    (⟨142, 68, 173, 255⟩, ⟨230, 126, 34, 255⟩),
    (⟨231, 76, 60, 255⟩, ⟨241, 196, 15, 255⟩),
    (⟨52, 152, 219, 255⟩, ⟨155, 89, 182, 255⟩),
    (⟨22, 160, 133, 255⟩, ⟨39, 174, 96, 255⟩),
    (⟨230, 126, 34, 255⟩, ⟨231, 76, 60, 255⟩),
    (⟨85, 98, 112, 255⟩, ⟨78, 205, 196, 255⟩),
    (⟨253, 121, 168, 255⟩, ⟨120, 119, 198, 255⟩),
    (⟨30, 60, 114, 255⟩, ⟨18, 194, 233, 255⟩),
    (⟨255, 107, 107, 255⟩, ⟨255, 159, 243, 255⟩) ]

/-- Conversion `int(x)` of a float: the fractional part is discarded (truncation
towards zero). -/
def truncate (q : ℚ) : Int :=
  if 0 ≤ q then ⌊q⌋ else ⌈q⌉

/-- Conversion `uint8(x)` of a float: truncation, kept in 8 bits.  (Go leaves the
conversion of a value outside 0..255 to the implementation; the gradient never produces
one.) -/
def uint8 (q : ℚ) : Fin 256 :=
  ⟨(truncate q % 256).toNat, by
    have h1 : 0 ≤ truncate q % 256 := Int.emod_nonneg _ (by decide)
    have h2 : truncate q % 256 < 256 := Int.emod_lt_of_pos _ (by decide)
    omega⟩

/-- The ratio of row `y`: `float64(y) / float64(height)`. -/
def ratio (y height : Nat) : ℚ :=
  fdiv (fl (y : ℚ)) (fl (height : ℚ))

/-- The value of one channel of the row colour before its conversion to 8 bits:
`float64(start)*(1-ratio) + float64(end)*ratio`. -/
def channelValue (startC endC : Fin 256) (y height : Nat) : ℚ :=
  fadd (fmul (startC.val : ℚ) (fsub 1 (ratio y height)))
    (fmul (endC.val : ℚ) (ratio y height))

/-- One channel of the row colour:
`uint8(float64(start)*(1-ratio) + float64(end)*ratio)`. -/
def channel (startC endC : Fin 256) (y height : Nat) : Fin 256 :=
  uint8 (channelValue startC endC y height)

/-- The colour `lineColor` of row `y`. -/
def lineColor (startColor endColor : RGBA) (y height : Nat) : RGBA :=
  let r := channel startColor.R endColor.R y height
  let g := channel startColor.G endColor.G y height
  let b := channel startColor.B endColor.B y height
  ⟨r, g, b, 255⟩

/-- The inner loop `for x := 0; x < width; x++ { img.Set(x, y, lineColor) }`. -/
def drawRow (img : Image) (width y : Nat) (lineColor : RGBA) : Image :=
  (List.range width).foldl (fun im x => im.set x y lineColor) img

/-- The loop `for y := 0; y < height; y++` over the rows, for a given pair. -/
def drawGradient (img : Image) (startColor endColor : RGBA) : Image :=
  let width := img.width
  let height := img.height
  (List.range height).foldl
    (fun im y => drawRow im width y (lineColor startColor endColor y height)) img

/-- Source `drawRandomGradientBackground`; `n` is the value of
`rand.Intn(len(colorPairs))`. -/
def drawRandomGradientBackground (img : Image) (n : Fin colorPairs.length) : Image :=
  let pair := colorPairs.get n
  let startColor := pair.1
  let endColor := pair.2
  drawGradient img startColor endColor

/-! ## `drawChineseText` and `addTextWithFontAndWrap` -/

/-- The fields of `CoverConfig`. -/
structure CoverConfig where
  Width : Int
  Height : Int
  Title : List Char
  Subtitle : List Char
  Author : List Char
  FontPath : List Char
  OutputPath : List Char

/-- What `drawChineseText` hands to `font.Drawer.DrawString`: the face size, the text,
the starting dot `fixed.P(x, y)` and the colour. -/
structure DrawnText where
  size : ℚ
  text : List Char
  x : Int
  y : Int
  col : RGBA

/-- Source `drawChineseText`, up to the call of `DrawString`: `none` when the face
cannot be constructed (the text is not drawn). -/
def drawChineseText (fnt : Font) (size : ℚ) (text : List Char) (x y : Int) (col : RGBA)
    (center : Bool) : Option DrawnText :=
  match fnt.newFace size with
  | none => none
  | some face =>
    let x := if center then x - Int.tdiv (textWidth face text) 2 else x
    some { size := size, text := text, x := x, y := y, col := col }

/-- The title font size chosen by `addTextWithFontAndWrap`: 58, or 50 when
`len(config.Title) > 20`. -/
def titleFontSize (title : List Char) : ℚ :=
  if strLen title > 20 then 50 else 58

/-- The left position of the author computed by `addTextWithFontAndWrap`. -/
def authorX (width authorWidth : Int) : Int :=
  let authorX := width - authorWidth - 30
  if authorX < 30 then 30 else authorX

/-- The texts drawn by `addTextWithFontAndWrap`. -/
structure CoverText where
  title : List (Option DrawnText)
  subtitle : List (Option DrawnText)
  author : Option DrawnText

/-- Source `addTextWithFontAndWrap` on an image of the given bounds: the calls of
`drawChineseText` it makes, in order. -/
def addTextWithFontAndWrap (img : Image) (config : CoverConfig) (fnt : Font) : CoverText :=
  let width : Int := (img.width : Int)
  let height : Int := (img.height : Int)
  let usableWidth := width - 120
  let titleSize := titleFontSize config.Title
  let titleLines := wrapText config.Title titleSize usableWidth fnt
  let titleY := Int.tdiv height 3
  let title := titleLines.enum.map (fun (i, line) =>
    drawChineseText fnt titleSize line (Int.tdiv width 2)
      (titleY + (i : Int) * truncate (fmul titleSize (fl 1.6))) ⟨255, 255, 255, 255⟩ true)
  let subtitleY := titleY + (titleLines.length : Int) * truncate (fmul titleSize (fl 1.6)) + 40
  let subtitleLines := wrapText config.Subtitle 34 usableWidth fnt
  let subtitle := subtitleLines.enum.map (fun (i, line) =>
    drawChineseText fnt 34 line (Int.tdiv width 2)
      (subtitleY + (i : Int) * truncate (fl (34 * 1.4))) ⟨245, 245, 245, 230⟩ true)
  let author :=
    match fnt.newFace 22 with
    | none => none
    | some face =>
      let authorWidth := textWidth face config.Author
      drawChineseText fnt 22 config.Author (authorX width authorWidth) (height - 50)
        ⟨255, 255, 255, 200⟩ false
  { title := title, subtitle := subtitle, author := author }

/-! ## Invariant of the wrapping loop -/

/-- Invariant of the wrapping loop: completed lines fit, `currentWidth` is the width of
`currentLine`, and a non-empty `currentLine` fits. -/
structure FitInv (face : Face) (maxWidth : Int) (st : WrapState) : Prop where
  done : ∀ line ∈ st.lines, textWidth face line ≤ maxWidth
  width : st.currentWidth = textWidth face st.currentLine
  cur : st.currentLine ≠ [] → st.currentWidth ≤ maxWidth

/-- Invariant of the wrapping loop: completed lines are non-empty, and a line wider than
`maxWidth`, completed or under construction, has no second character. -/
structure WideInv (face : Face) (maxWidth : Int) (st : WrapState) : Prop where
  done : ∀ line ∈ st.lines, line ≠ [] ∧ (maxWidth < textWidth face line → line.length = 1)
  width : st.currentWidth = textWidth face st.currentLine
  cur : maxWidth < st.currentWidth → st.currentLine.length ≤ 1

/-- The reason for a break between a line `L` and the next line `L2`: `L2` starts with a
character `c` that would have overflowed `L`, or `c` is a punctuation mark that would have
taken `L` beyond the threshold `maxWidth*9/10` as the code computes it. -/
def BreakOk (face : Face) (maxWidth : Int) (L L2 : List Char) : Prop :=
  ∃ c rest, L2 = c :: rest ∧
    (textWidth face L + textWidth face [c] > maxWidth ∨
      (isPunctuation c = true ∧
        textWidth face L + textWidth face [c] > Int.tdiv (wrap64 (maxWidth * 9)) 10))

/-- Invariant of the wrapping loop: every break made so far, the one before the line under
construction included, has a reason, and completed lines are non-empty. -/
structure BreakInv (face : Face) (maxWidth : Int) (st : WrapState) : Prop where
  chain : List.Chain' (BreakOk face maxWidth) (st.lines ++ [st.currentLine])
  nonempty : ∀ line ∈ st.lines, line ≠ []
  start : st.currentLine = [] → st.lines = []
  width : st.currentWidth = textWidth face st.currentLine

/-! ## Comparing colours -/

/-- Two channel values differ by at most one. -/
@[reducible] def within1 (a b : Fin 256) : Prop :=
  a.val ≤ b.val + 1 ∧ b.val ≤ a.val + 1

/-- Two channel values differ by less than `h`. -/
@[reducible] def closer (a b : Fin 256) (h : Nat) : Prop :=
  a.val < b.val + h ∧ b.val < a.val + h

/-- Two colours agree within one in each of R, G and B. -/
@[reducible] def rgbWithin1 (c e : RGBA) : Prop :=
  within1 c.R e.R ∧ within1 c.G e.G ∧ within1 c.B e.B

/-! ## Sample inputs -/

/-- A face in the manner of a CJK font at 58 points: 32 pixels for ASCII, a full-width 58
for the other characters below U+1F000, and no glyph from U+1F000 on. -/
def sampleFace : Face :=
  ⟨fun ch => if ch.toNat < 0x80 then some 32 else if ch.toNat < 0x1F000 then some 58 else none⟩

/-- A font whose face is `sampleFace` at every size. -/
def sampleFont : Font := ⟨fun _ => some sampleFace⟩

/-- A font for which `opentype.NewFace` fails at every size. -/
def brokenFont : Font := ⟨fun _ => none⟩

/-- The title of `main`. -/
def mainTitle : List Char := "Go编程完全指南".data

/-- The subtitle of `main`. -/
def mainSubtitle : List Char := "构建高效、可靠的现代后端服务".data

/-- A text of 24 code points without any delimiter. -/
def plainText24 : List Char := "aaaaaaaaaaaaaaaaaaaaaaaa".data

/-- A text of 24 code points whose only delimiter is at index 16. -/
def commaText24 : List Char := "aaaaaaaaaaaaaaaa，aaaaaaa".data

/-- A text of 17 code points, one of them without glyph in `sampleFace`, that fits in one
line of width 5000. -/
def emojiText17 : List Char := "aaaaaaaa😀aaaaaaaa".data

/-- The variables of the wrapping loop after the characters `封面生` at width 180 with
`sampleFace`: one line under construction, 174 pixels wide. -/
def fullLineState : WrapState :=
  { lines := [], currentLine := "封面生".data, currentWidth := 174 }

/-- The configuration of `main`. -/
def mainConfig : CoverConfig :=
  { Width := 630, Height := 1200, Title := mainTitle, Subtitle := mainSubtitle,
    Author := "AI生成 © 2024".data, FontPath := "fonts/NotoSansSC-Regular.ttf".data,
    OutputPath := "cover_chinese.png".data }

/-- A width whose product by 9 is `2^63 + 1`, one more than a 64-bit `int` holds. -/
def hugeWidth : Int := 1024819115206086201

/-! # Theorems -/

/-! ## Basic facts about strings and widths -/

/-- A value inside the 64-bit range is not changed by the wrap-around. -/
theorem wrap64_of_range (x : Int) (hlo : -2 ^ 63 ≤ x) (hhi : x < 2 ^ 63) : wrap64 x = x := by
  unfold wrap64
  omega

theorem runeLen_pos (ch : Char) : 0 < runeLen ch := by
  unfold runeLen
  split_ifs <;> decide

theorem strLen_pos_iff (s : List Char) : 0 < strLen s ↔ s ≠ [] := by
  cases s with
  | nil => simp [strLen]
  | cons ch rest =>
    have h := runeLen_pos ch
    simp only [strLen, List.map_cons, List.sum_cons, ne_eq, reduceCtorEq, not_false_eq_true,
      iff_true]
    omega

theorem strLen_append_singleton_pos (s : List Char) (ch : Char) : 0 < strLen (s ++ [ch]) :=
  (strLen_pos_iff _).2 (by simp)

/-- The measuring loop started from any accumulator adds the width of the text to it. -/
theorem textWidth_foldl (face : Face) (text : List Char) (acc : Int) :
    text.foldl
      (fun acc ch =>
        match face.glyphAdvance ch with
        | some advance => acc + (advance : Int)
        | none => acc)
      acc = acc + textWidth face text := by
  induction text generalizing acc with
  | nil => simp [textWidth]
  | cons ch rest ih =>
    unfold textWidth
    simp only [List.foldl_cons]
    rw [ih, ih (match face.glyphAdvance ch with
      | some advance => 0 + (advance : Int)
      | none => 0)]
    cases face.glyphAdvance ch with
    | none => simp
    | some w => simp only [zero_add]; ring

theorem textWidth_nil (face : Face) : textWidth face [] = 0 := rfl

theorem textWidth_append (face : Face) (s t : List Char) :
    textWidth face (s ++ t) = textWidth face s + textWidth face t := by
  unfold textWidth
  rw [List.foldl_append]
  exact textWidth_foldl face t _

theorem textWidth_singleton_some (face : Face) (ch : Char) (w : Nat)
    (h : face.glyphAdvance ch = some w) : textWidth face [ch] = (w : Int) := by
  simp [textWidth, h]

theorem textWidth_singleton_none (face : Face) (ch : Char)
    (h : face.glyphAdvance ch = none) : textWidth face [ch] = 0 := by
  simp [textWidth, h]

theorem textWidth_nonneg (face : Face) (text : List Char) : 0 ≤ textWidth face text := by
  induction text with
  | nil => simp [textWidth]
  | cons ch rest ih =>
    have h := textWidth_append face [ch] rest
    simp only [List.singleton_append] at h
    rw [h]
    cases hg : face.glyphAdvance ch with
    | none => rw [textWidth_singleton_none face ch hg]; omega
    | some w => rw [textWidth_singleton_some face ch w hg]; omega

/-! ## The loop invariant behind the width bound -/

theorem FitInv.flush {face : Face} {maxWidth : Int} {st : WrapState}
    (h : FitInv face maxWidth st) (hne : st.currentLine ≠ []) :
    FitInv face maxWidth st.flush := by
  refine ⟨?_, ?_, ?_⟩
  · intro line hl
    simp only [WrapState.flush, List.mem_append, List.mem_singleton] at hl
    rcases hl with hl | hl
    · exact h.done line hl
    · rw [hl, ← h.width]; exact h.cur hne
  · simp [WrapState.flush, textWidth_nil]
  · intro hc; simp [WrapState.flush] at hc

theorem overflowCond_true {maxWidth : Int} {st : WrapState} {w : Int}
    (h : overflowCond maxWidth st w = true) :
    st.currentWidth + w > maxWidth ∧ st.currentLine ≠ [] := by
  simp only [overflowCond, Bool.and_eq_true, decide_eq_true_eq] at h
  exact ⟨h.1, (strLen_pos_iff _).1 h.2⟩

theorem overflowCond_false {maxWidth : Int} {st : WrapState} {w : Int}
    (h : overflowCond maxWidth st w = false) :
    st.currentWidth + w ≤ maxWidth ∨ st.currentLine = [] := by
  simp only [overflowCond, Bool.and_eq_false_iff, decide_eq_false_iff_not, not_lt] at h
  rcases h with h | h
  · exact Or.inl (by omega)
  · right
    by_contra hne
    have := (strLen_pos_iff _).2 hne
    omega

theorem punctCond_true {maxWidth : Int} {st : WrapState} {ch : Char} {w : Int}
    (h : punctCond maxWidth st ch w = true) :
    st.currentLine ≠ [] ∧ isPunctuation ch = true ∧
      st.currentWidth + w > Int.tdiv (wrap64 (maxWidth * 9)) 10 := by
  simp only [punctCond, Bool.and_eq_true, decide_eq_true_eq] at h
  exact ⟨(strLen_pos_iff _).1 h.1.1, h.1.2, h.2⟩

theorem FitInv.step {face : Face} {maxWidth : Int} {st : WrapState} (ch : Char)
    (h : FitInv face maxWidth st)
    (hw : ∀ w, face.glyphAdvance ch = some w → (w : Int) ≤ maxWidth) :
    FitInv face maxWidth (wrapStep face maxWidth st ch) := by
  unfold wrapStep
  cases hg : face.glyphAdvance ch with
  | none => exact h
  | some w =>
    have hwm := hw w hg
    simp only
    -- after the width test
    have h1 : FitInv face maxWidth
        (if overflowCond maxWidth st (w : Int) then st.flush else st) ∧
        ((if overflowCond maxWidth st (w : Int) then st.flush else st).currentLine ≠ [] →
          (if overflowCond maxWidth st (w : Int) then st.flush else st).currentWidth + (w : Int)
            ≤ maxWidth) := by
      cases ho : overflowCond maxWidth st (w : Int) with
      | true =>
        simp only [if_true]
        exact ⟨h.flush (overflowCond_true ho).2, fun hne => absurd rfl hne⟩
      | false =>
        simp only [Bool.false_eq_true, if_false]
        refine ⟨h, fun hne => ?_⟩
        rcases overflowCond_false ho with hle | he
        · exact hle
        · exact absurd he hne
    generalize (if overflowCond maxWidth st (w : Int) then st.flush else st) = st1 at h1
    obtain ⟨hi1, hb1⟩ := h1
    have h2 : FitInv face maxWidth
        (if punctCond maxWidth st1 ch (w : Int) then st1.flush else st1) ∧
        ((if punctCond maxWidth st1 ch (w : Int) then st1.flush else st1).currentLine ≠ [] →
          (if punctCond maxWidth st1 ch (w : Int) then st1.flush else st1).currentWidth
            + (w : Int) ≤ maxWidth) := by
      cases hp : punctCond maxWidth st1 ch (w : Int) with
      | true =>
        simp only [if_true]
        exact ⟨hi1.flush (punctCond_true hp).1, fun hne => absurd rfl hne⟩
      | false =>
        simp only [Bool.false_eq_true, if_false]
        exact ⟨hi1, hb1⟩
    generalize (if punctCond maxWidth st1 ch (w : Int) then st1.flush else st1) = st2 at h2
    obtain ⟨hi2, hb2⟩ := h2
    refine ⟨hi2.done, ?_, ?_⟩
    · simp only
      rw [textWidth_append, textWidth_singleton_some face ch w hg, hi2.width]
    · intro _
      simp only
      by_cases hne : st2.currentLine = []
      · have := hi2.width
        rw [hne, textWidth_nil] at this
        rw [this]; omega
      · exact hb2 hne

theorem FitInv.foldl {face : Face} {maxWidth : Int} (text : List Char) (st : WrapState)
    (h : FitInv face maxWidth st)
    (hw : ∀ ch ∈ text, ∀ w, face.glyphAdvance ch = some w → (w : Int) ≤ maxWidth) :
    FitInv face maxWidth (text.foldl (wrapStep face maxWidth) st) := by
  induction text generalizing st with
  | nil => exact h
  | cons ch rest ih =>
    simp only [List.foldl_cons]
    exact ih _ (h.step ch (hw ch (List.mem_cons_self _ _)))
      (fun c hc => hw c (List.mem_cons_of_mem _ hc))

theorem greedyLines_fit (face : Face) (maxWidth : Int) (text : List Char)
    (hw : ∀ ch ∈ text, ∀ w, face.glyphAdvance ch = some w → (w : Int) ≤ maxWidth) :
    ∀ line ∈ greedyLines face maxWidth text, textWidth face line ≤ maxWidth := by
  have hinv : FitInv face maxWidth (wrapLoop face maxWidth text) :=
    FitInv.foldl text _ ⟨by simp, by simp [textWidth_nil], by simp⟩ hw
  intro line hl
  unfold greedyLines at hl
  simp only at hl
  split_ifs at hl with hpos
  · simp only [List.mem_append, List.mem_singleton] at hl
    rcases hl with hl | hl
    · exact hinv.done line hl
    · rw [hl, ← hinv.width]
      exact hinv.cur ((strLen_pos_iff _).1 hpos)
  · exact hinv.done line hl

theorem wrapText_of_forced {text : List Char} {fontSize : ℚ} {maxWidth : Int} {fnt : Font}
    {face : Face} (hface : fnt.newFace fontSize = some face)
    (hc : forcedSplitCond (greedyLines face maxWidth text) text = true) :
    wrapText text fontSize maxWidth fnt = forcedSplit text := by
  simp [wrapText, hface, hc]

theorem wrapText_of_not_forced {text : List Char} {fontSize : ℚ} {maxWidth : Int} {fnt : Font}
    {face : Face} (hface : fnt.newFace fontSize = some face)
    (hc : forcedSplitCond (greedyLines face maxWidth text) text = false) :
    wrapText text fontSize maxWidth fnt = greedyLines face maxWidth text := by
  simp [wrapText, hface, hc]

/-- C1: when the face is constructed, `maxWidth` is at least the advance of every
measurable character of the text and the forced-split branch is not taken, every line
returned by `wrapText` has measured width at most `maxWidth`. -/
theorem wrapText_line_width_le (text : List Char) (fontSize : ℚ) (maxWidth : Int)
    (fnt : Font) (face : Face) (hface : fnt.newFace fontSize = some face)
    (hwide : ∀ ch ∈ text, ∀ w, face.glyphAdvance ch = some w → (w : Int) ≤ maxWidth)
    (hno : forcedSplitCond (greedyLines face maxWidth text) text = false) :
    ∀ line ∈ wrapText text fontSize maxWidth fnt, textWidth face line ≤ maxWidth := by
  rw [wrapText_of_not_forced hface hno]
  exact greedyLines_fit face maxWidth text hwide

set_option maxRecDepth 100000 in
/-- C1 at the subtitle of `main`, which wraps into two lines at width 510. -/
theorem wrapText_line_width_le_witness :
    wrapText mainSubtitle 34 510 sampleFont
        = ["构建高效、可靠的".data, "现代后端服务".data] ∧
      ∀ line ∈ wrapText mainSubtitle 34 510 sampleFont, textWidth sampleFace line ≤ 510 :=
  ⟨by decide,
    wrapText_line_width_le mainSubtitle 34 510 sampleFont sampleFace rfl (by decide)
      (by decide)⟩

/-! ## The greedy pass keeps the measurable characters, in order -/

/-- What one iteration adds to the characters held in `lines` and `currentLine`. -/
theorem wrapStep_chars (face : Face) (maxWidth : Int) (st : WrapState) (ch : Char) :
    (wrapStep face maxWidth st ch).lines.flatten ++ (wrapStep face maxWidth st ch).currentLine
      = st.lines.flatten ++ st.currentLine
          ++ [ch].filter (fun c => (face.glyphAdvance c).isSome) := by
  unfold wrapStep
  cases hg : face.glyphAdvance ch with
  | none => simp [hg]
  | some w =>
    have hflush : ∀ (b : Bool) (s : WrapState),
        (if b = true then s.flush else s).lines.flatten
            ++ (if b = true then s.flush else s).currentLine
          = s.lines.flatten ++ s.currentLine := by
      intro b s; cases b <;> simp [WrapState.flush]
    simp only [List.filter_cons, hg, Option.isSome_some, if_true, List.filter_nil]
    rw [← List.append_assoc, hflush, hflush]

theorem wrapFoldl_chars (face : Face) (maxWidth : Int) (text : List Char) (st : WrapState) :
    (text.foldl (wrapStep face maxWidth) st).lines.flatten
        ++ (text.foldl (wrapStep face maxWidth) st).currentLine
      = st.lines.flatten ++ st.currentLine
          ++ text.filter (fun c => (face.glyphAdvance c).isSome) := by
  induction text generalizing st with
  | nil => simp
  | cons ch rest ih =>
    simp only [List.foldl_cons]
    rw [ih, wrapStep_chars, List.append_assoc, ← List.filter_append]
    rfl

theorem greedyLines_flatten (face : Face) (maxWidth : Int) (text : List Char) :
    (greedyLines face maxWidth text).flatten
      = text.filter (fun c => (face.glyphAdvance c).isSome) := by
  have h := wrapFoldl_chars face maxWidth text
    { lines := [], currentLine := [], currentWidth := 0 }
  simp only [List.flatten_nil, List.nil_append] at h
  unfold greedyLines
  simp only
  split_ifs with hpos
  · rw [List.flatten_append, List.flatten_singleton]
    exact h
  · have hnil : (wrapLoop face maxWidth text).currentLine = [] := by
      by_contra hne
      exact hpos ((strLen_pos_iff _).2 hne)
    unfold wrapLoop at hnil
    rw [hnil, List.append_nil] at h
    exact h

/-- C2: when the face is constructed and the forced-split branch is not taken, the lines
returned by `wrapText`, concatenated in order, are the text without the characters that
have no glyph advance. -/
theorem wrapText_flatten_eq_filter (text : List Char) (fontSize : ℚ) (maxWidth : Int)
    (fnt : Font) (face : Face) (hface : fnt.newFace fontSize = some face)
    (hno : forcedSplitCond (greedyLines face maxWidth text) text = false) :
    (wrapText text fontSize maxWidth fnt).flatten
      = text.filter (fun ch => (face.glyphAdvance ch).isSome) := by
  rw [wrapText_of_not_forced hface hno]
  exact greedyLines_flatten face maxWidth text

set_option maxRecDepth 100000 in
/-- C2 at a text with a character that has no glyph (U+1F600), wrapped at width 200. -/
theorem wrapText_flatten_eq_filter_witness :
    wrapText "封面😀生成器，完成".data 58 200 sampleFont
        = ["封面生".data, "成器，".data, "完成".data] ∧
      (wrapText "封面😀生成器，完成".data 58 200 sampleFont).flatten
        = "封面😀生成器，完成".data.filter (fun ch => (sampleFace.glyphAdvance ch).isSome) :=
  ⟨by decide,
    wrapText_flatten_eq_filter "封面😀生成器，完成".data 58 200 sampleFont sampleFace rfl
      (by decide)⟩

/-! ## The forced split -/

/-- The delimiters of the forced split are the punctuation marks and the space: the
three further comparisons of the source are with marks already in `punctuation`. -/
theorem isSplitPoint_iff (ch : Char) :
    isSplitPoint ch = true ↔ ch ∈ punctuation ∨ ch = ' ' := by
  have hp : isPunctuation ch = true ↔ ch ∈ punctuation := by
    simp [isPunctuation, List.any_eq_true]
  have h1 : ('、' : Char) ∈ punctuation := by decide
  have h2 : ('，' : Char) ∈ punctuation := by decide
  have h3 : ('。' : Char) ∈ punctuation := by decide
  simp only [isSplitPoint, Bool.or_eq_true, hp, beq_iff_eq]
  constructor
  · rintro ((((h | h) | h) | h) | h)
    · exact Or.inl h
    · exact Or.inr h
    · exact Or.inl (h ▸ h1)
    · exact Or.inl (h ▸ h2)
    · exact Or.inl (h ▸ h3)
  · rintro (h | h)
    · exact Or.inl (Or.inl (Or.inl (Or.inl h)))
    · exact Or.inl (Or.inl (Or.inl (Or.inr h)))

/-- The scan returns at the first delimiter of the runes it is given. -/
theorem findSplit_first (rest : List Char) (i k : Nat) (ch : Char)
    (hk : rest[k]? = some ch) (hd : isSplitPoint ch = true)
    (hbefore : ∀ j c, j < k → rest[j]? = some c → isSplitPoint c = false) :
    findSplit i rest = some (i + k) := by
  induction rest generalizing i k with
  | nil => simp at hk
  | cons c r ih =>
    cases k with
    | zero =>
      simp only [List.getElem?_cons_zero, Option.some.injEq] at hk
      subst hk
      simp [findSplit, hd]
    | succ k =>
      have hc : isSplitPoint c = false := hbefore 0 c (Nat.succ_pos k) (by simp)
      simp only [List.getElem?_cons_succ] at hk
      have := ih (i + 1) k hk (fun j c' hj hc' => hbefore (j + 1) c' (by omega) (by simpa using hc'))
      simp only [findSplit, hc, Bool.false_eq_true, if_false, this]
      congr 1; omega

/-- The scan falls through when the runes it is given hold no delimiter. -/
theorem findSplit_none (rest : List Char) (i : Nat)
    (h : ∀ c ∈ rest, isSplitPoint c = false) : findSplit i rest = none := by
  induction rest generalizing i with
  | nil => rfl
  | cons c r ih =>
    simp only [findSplit, h c (List.mem_cons_self _ _), Bool.false_eq_true, if_false]
    exact ih (i + 1) (fun c' hc' => h c' (List.mem_cons_of_mem _ hc'))

theorem forcedSplit_at_delimiter (text : List Char) (i : Nat) (ch : Char)
    (hmid : text.length / 2 ≤ i) (hi : text[i]? = some ch) (hd : isSplitPoint ch = true)
    (hbefore : ∀ j c, text.length / 2 ≤ j → j < i → text[j]? = some c →
      isSplitPoint c = false) :
    forcedSplit text = [text.take (i + 1), text.drop (i + 1)] := by
  have hfind : findSplit (text.length / 2) (text.drop (text.length / 2)) = some i := by
    have := findSplit_first (text.drop (text.length / 2)) (text.length / 2)
      (i - text.length / 2) ch
      (by rw [List.getElem?_drop, Nat.add_sub_cancel' hmid]; exact hi) hd
      (fun j c hj hc => hbefore (text.length / 2 + j) c (by omega) (by omega)
        (by rw [List.getElem?_drop] at hc; exact hc))
    rw [this, Nat.add_sub_cancel' hmid]
  simp [forcedSplit, hfind]

theorem forcedSplit_at_mid (text : List Char)
    (hnone : ∀ i c, text.length / 2 ≤ i → text[i]? = some c → isSplitPoint c = false) :
    forcedSplit text = [text.take (text.length / 2), text.drop (text.length / 2)] := by
  have hfind : findSplit (text.length / 2) (text.drop (text.length / 2)) = none := by
    apply findSplit_none
    intro c hc
    obtain ⟨j, hj⟩ := List.mem_iff_getElem?.1 hc
    rw [List.getElem?_drop] at hj
    exact hnone _ c (Nat.le_add_right _ _) hj
  simp [forcedSplit, hfind]

theorem forcedSplit_length (text : List Char) : (forcedSplit text).length = 2 := by
  unfold forcedSplit
  simp only
  split <;> rfl

/-- C3: for a text of more than 15 code points whose greedy pass yields exactly one
line, `wrapText` returns exactly two lines; they are cut right after the least index
`i >= mid` holding a delimiter when there is one, and at `mid` otherwise. -/
theorem wrapText_forced_split (text : List Char) (fontSize : ℚ) (maxWidth : Int)
    (fnt : Font) (face : Face) (hface : fnt.newFace fontSize = some face)
    (hlen : 15 < text.length) (hone : (greedyLines face maxWidth text).length = 1) :
    (wrapText text fontSize maxWidth fnt).length = 2 ∧
    (∀ i ch, text.length / 2 ≤ i → text[i]? = some ch → (ch ∈ punctuation ∨ ch = ' ') →
      (∀ j c, text.length / 2 ≤ j → j < i → text[j]? = some c →
        ¬ (c ∈ punctuation ∨ c = ' ')) →
      wrapText text fontSize maxWidth fnt = [text.take (i + 1), text.drop (i + 1)]) ∧
    ((∀ i c, text.length / 2 ≤ i → text[i]? = some c → ¬ (c ∈ punctuation ∨ c = ' ')) →
      wrapText text fontSize maxWidth fnt
        = [text.take (text.length / 2), text.drop (text.length / 2)]) := by
  have hc : forcedSplitCond (greedyLines face maxWidth text) text = true := by
    simp [forcedSplitCond, hone, hlen]
  have hnot : ∀ c : Char, ¬ (c ∈ punctuation ∨ c = ' ') → isSplitPoint c = false := by
    intro c h
    rw [← isSplitPoint_iff] at h
    simpa using h
  rw [wrapText_of_forced hface hc]
  refine ⟨forcedSplit_length text, ?_, ?_⟩
  · intro i ch hmid hi hd hbefore
    exact forcedSplit_at_delimiter text i ch hmid hi ((isSplitPoint_iff ch).2 hd)
      (fun j c hj hji hcj => hnot c (hbefore j c hj hji hcj))
  · intro hnone
    exact forcedSplit_at_mid text (fun i c hi hci => hnot c (hnone i c hi hci))

set_option maxRecDepth 100000 in
/-- C3 at a text of 24 code points that fits in one line and has its only delimiter at
index 16: the lines are code points 0..16 and 17..23. -/
theorem wrapText_forced_split_witness :
    wrapText commaText24 34 5000 sampleFont
      = ["aaaaaaaaaaaaaaaa，".data, "aaaaaaa".data] :=
  (wrapText_forced_split commaText24 34 5000 sampleFont sampleFace rfl (by decide)
    (by decide)).2.1 16 '，' (by decide) (by decide) (by decide)
    (by
      intro j c h1 h2 h3
      have h12 : commaText24.length / 2 = 12 := by decide
      rw [h12] at h1
      interval_cases j <;>
        · simp only [commaText24, List.getElem?_cons_succ, List.getElem?_cons_zero,
            Option.some.injEq] at h3
          subst h3
          decide)

set_option maxRecDepth 100000 in
/-- C4 as stated fails: a text of 24 code points without delimiter that the greedy pass
wraps (here at width 320 into lines of 10, 10 and 4 characters) is returned as wrapped,
not split at index 12. -/
theorem wrapText_24_not_always_split :
    plainText24.length = 24 ∧ (∀ ch ∈ plainText24, ¬ (ch ∈ punctuation ∨ ch = ' ')) ∧
      wrapText plainText24 34 320 sampleFont
        = ["aaaaaaaaaa".data, "aaaaaaaaaa".data, "aaaa".data] ∧
      wrapText plainText24 34 320 sampleFont
        ≠ [plainText24.take 12, plainText24.drop 12] := by
  decide

/-- C4, amended: for a text of exactly 24 code points without delimiter whose greedy pass
yields exactly one line, `wrapText` returns two lines, code points 0..11 and 12..23. -/
theorem wrapText_24_split_at_12 (text : List Char) (fontSize : ℚ) (maxWidth : Int)
    (fnt : Font) (face : Face) (hface : fnt.newFace fontSize = some face)
    (hlen : text.length = 24) (hplain : ∀ ch ∈ text, ¬ (ch ∈ punctuation ∨ ch = ' '))
    (hone : (greedyLines face maxWidth text).length = 1) :
    wrapText text fontSize maxWidth fnt = [text.take 12, text.drop 12] := by
  have hc : forcedSplitCond (greedyLines face maxWidth text) text = true := by
    simp [forcedSplitCond, hone, hlen]
  have hmid : text.length / 2 = 12 := by rw [hlen]
  rw [wrapText_of_forced hface hc, ← hmid]
  apply forcedSplit_at_mid
  intro i c _ hi
  have hmem : c ∈ text := List.mem_iff_getElem?.2 ⟨i, hi⟩
  have h := hplain c hmem
  rw [← isSplitPoint_iff] at h
  simpa using h

set_option maxRecDepth 100000 in
/-- C4, amended, at 24 letters that fit in one line of width 5000. -/
theorem wrapText_24_split_at_12_witness :
    wrapText plainText24 34 5000 sampleFont = ["aaaaaaaaaaaa".data, "aaaaaaaaaaaa".data] :=
  wrapText_24_split_at_12 plainText24 34 5000 sampleFont sampleFace rfl (by decide)
    (by decide) (by decide)

/-! ## A short text that fits is returned as one line -/

/-- While the characters have a glyph, are no punctuation and the whole line fits, the
loop only appends to `currentLine`. -/
theorem wrapFoldl_fits (face : Face) (maxWidth : Int) (text : List Char) (st : WrapState)
    (hglyph : ∀ ch ∈ text, (face.glyphAdvance ch).isSome = true)
    (hpunct : ∀ ch ∈ text, isPunctuation ch = false)
    (hwidth : st.currentWidth = textWidth face st.currentLine)
    (hfit : textWidth face (st.currentLine ++ text) ≤ maxWidth) :
    text.foldl (wrapStep face maxWidth) st
      = { lines := st.lines, currentLine := st.currentLine ++ text,
          currentWidth := textWidth face (st.currentLine ++ text) } := by
  induction text generalizing st with
  | nil => simp [← hwidth]
  | cons ch rest ih =>
    obtain ⟨w, hg⟩ := Option.isSome_iff_exists.1 (hglyph ch (List.mem_cons_self _ _))
    have hp := hpunct ch (List.mem_cons_self _ _)
    have hsplit : st.currentLine ++ ch :: rest = (st.currentLine ++ [ch]) ++ rest := by simp
    have hrest := textWidth_nonneg face rest
    have hcw : textWidth face (st.currentLine ++ [ch]) = st.currentWidth + (w : Int) := by
      rw [textWidth_append, textWidth_singleton_some face ch w hg, hwidth]
    have hstep : wrapStep face maxWidth st ch
        = { lines := st.lines, currentLine := st.currentLine ++ [ch],
            currentWidth := st.currentWidth + (w : Int) } := by
      have ho : overflowCond maxWidth st (w : Int) = false := by
        rw [hsplit, textWidth_append, hcw] at hfit
        simp only [overflowCond, Bool.and_eq_false_iff, decide_eq_false_iff_not, not_lt]
        left; omega
      simp [wrapStep, hg, ho, punctCond, hp]
    simp only [List.foldl_cons]
    rw [hstep, ih _ (fun c hc => hglyph c (List.mem_cons_of_mem _ hc))
      (fun c hc => hpunct c (List.mem_cons_of_mem _ hc)) hcw.symm (by rw [← hsplit]; exact hfit)]
    simp

/-- C5: a non-empty text of at most 15 code points without punctuation, all of whose
characters have a glyph and whose measured width is at most `maxWidth`, is returned by
`wrapText` as exactly one line, the text itself, and the forced-split branch is not
taken. -/
theorem wrapText_short_fits (text : List Char) (fontSize : ℚ) (maxWidth : Int)
    (fnt : Font) (face : Face) (hface : fnt.newFace fontSize = some face)
    (hne : text ≠ []) (hlen : text.length ≤ 15)
    (hpunct : ∀ ch ∈ text, isPunctuation ch = false)
    (hglyph : ∀ ch ∈ text, (face.glyphAdvance ch).isSome = true)
    (hfit : textWidth face text ≤ maxWidth) :
    wrapText text fontSize maxWidth fnt = [text] ∧
      forcedSplitCond (greedyLines face maxWidth text) text = false := by
  have hloop : wrapLoop face maxWidth text
      = { lines := [], currentLine := text, currentWidth := textWidth face text } := by
    have := wrapFoldl_fits face maxWidth text
      { lines := [], currentLine := [], currentWidth := 0 } hglyph hpunct rfl
      (by simpa using hfit)
    simpa [wrapLoop] using this
  have hgreedy : greedyLines face maxWidth text = [text] := by
    simp [greedyLines, hloop, (strLen_pos_iff text).2 hne]
  have hc : forcedSplitCond (greedyLines face maxWidth text) text = false := by
    simp [forcedSplitCond, hgreedy]; omega
  exact ⟨by rw [wrapText_of_not_forced hface hc, hgreedy], hc⟩

set_option maxRecDepth 100000 in
/-- C5 at the title of `main` with `maxWidth` 510 = 630 - 120. -/
theorem wrapText_short_fits_witness :
    wrapText mainTitle 58 (630 - 120) sampleFont = [mainTitle] ∧
      forcedSplitCond (greedyLines sampleFace (630 - 120) mainTitle) mainTitle = false :=
  wrapText_short_fits mainTitle 58 (630 - 120) sampleFont sampleFace rfl (by decide)
    (by decide) (by decide) (by decide) (by decide)

/-! ## The empty text -/

/-- C10: for every font and font size, the face being constructed as `opentype.NewFace`
does for every font and size, and every `maxWidth`, `wrapText` applied to the empty text
returns the empty sequence of lines. -/
theorem wrapText_empty (fontSize : ℚ) (maxWidth : Int) (fnt : Font) (face : Face)
    (hface : fnt.newFace fontSize = some face) :
    wrapText [] fontSize maxWidth fnt = [] := by
  have hloop : wrapLoop face maxWidth []
      = { lines := [], currentLine := [], currentWidth := 0 } := rfl
  have hgreedy : greedyLines face maxWidth [] = [] := by
    simp [greedyLines, hloop, strLen]
  have hc : forcedSplitCond (greedyLines face maxWidth []) [] = false := by
    simp [forcedSplitCond, hgreedy]
  rw [wrapText_of_not_forced hface hc, hgreedy]

/-- C10 at the sample font, size 58 and width 510. -/
theorem wrapText_empty_witness : wrapText [] 58 510 sampleFont = [] :=
  wrapText_empty 58 510 sampleFont sampleFace rfl

/-! ## Title font size and author placement -/

/-- The reduced size is chosen exactly when the title is longer than 20 bytes. -/
theorem titleFontSize_eq_50_iff (title : List Char) :
    titleFontSize title = 50 ↔ 20 < strLen title := by
  unfold titleFontSize
  split_ifs with h
  · simp [h]
  · simp only [h, iff_false]; norm_num

/-- Every code point counts for at least one byte. -/
theorem length_le_strLen (s : List Char) : s.length ≤ strLen s := by
  induction s with
  | nil => simp [strLen]
  | cons ch rest ih =>
    have h := runeLen_pos ch
    simp only [strLen, List.map_cons, List.sum_cons, List.length_cons] at ih ⊢
    omega

/-- A title of more than 20 code points gets the reduced size. -/
theorem titleFontSize_of_long (title : List Char) (h : 20 < title.length) :
    titleFontSize title = 50 :=
  (titleFontSize_eq_50_iff title).2 (lt_of_lt_of_le h (length_le_strLen title))

set_option maxRecDepth 100000 in
/-- C6 at a title of ten code points, which is 26 bytes long: the code chooses the
reduced size 50, the claim the large size 58. -/
theorem titleFontSize_ten_code_points :
    "Go语言编程完全指南".data.length = 10 ∧ strLen "Go语言编程完全指南".data = 26 ∧
      titleFontSize "Go语言编程完全指南".data = 50 ∧
      titleFontSize "Go语言编程完全指南".data ≠ 58 := by
  have h : strLen "Go语言编程完全指南".data = 26 := by decide
  refine ⟨by decide, h, ?_, ?_⟩
  · exact (titleFontSize_eq_50_iff _).2 (by omega)
  · rw [(titleFontSize_eq_50_iff _).2 (by omega)]; norm_num

/-- C7: the author's left position is `max(30, width - authorWidth - 30)`; it is 30
whenever `authorWidth` exceeds `width - 60`, and it is never below 30 nor negative. -/
theorem authorX_eq_max (width authorWidth : Int) :
    authorX width authorWidth = max 30 (width - authorWidth - 30) ∧
      (width - 60 < authorWidth → authorX width authorWidth = 30) ∧
      30 ≤ authorX width authorWidth ∧ 0 ≤ authorX width authorWidth := by
  unfold authorX
  simp only
  split_ifs with h
  · refine ⟨?_, fun _ => rfl, le_refl _, by decide⟩
    rw [max_eq_left (le_of_lt h)]
  · refine ⟨?_, fun h2 => ?_, by omega, by omega⟩
    · rw [max_eq_right (by omega)]
    · omega

/-- C7 at an author text 700 pixels wide on an image 630 pixels wide. -/
theorem authorX_eq_max_witness : authorX 630 700 = 30 :=
  (authorX_eq_max 630 700).2.1 (by decide)

/-- The author is drawn at `authorX` of the image width and its measured width. -/
theorem addTextWithFontAndWrap_author (img : Image) (config : CoverConfig) (fnt : Font)
    (face : Face) (hface : fnt.newFace 22 = some face) :
    (addTextWithFontAndWrap img config fnt).author
      = some { size := 22, text := config.Author,
               x := authorX (img.width : Int) (textWidth face config.Author),
               y := (img.height : Int) - 50, col := ⟨255, 255, 255, 200⟩ } := by
  simp [addTextWithFontAndWrap, drawChineseText, hface]

/-! ## The gradient: what the two loops store -/

theorem Image.set_width (img : Image) (x y : Nat) (c : RGBA) :
    (img.set x y c).width = img.width := by
  unfold Image.set; split_ifs <;> rfl

theorem Image.set_height (img : Image) (x y : Nat) (c : RGBA) :
    (img.set x y c).height = img.height := by
  unfold Image.set; split_ifs <;> rfl

theorem Image.set_pix (img : Image) (x y : Nat) (c : RGBA) (i j : Nat) :
    (img.set x y c).pix i j
      = if i = x ∧ j = y ∧ x < img.width ∧ y < img.height then c else img.pix i j := by
  unfold Image.set
  by_cases hb : x < img.width ∧ y < img.height
  · rw [if_pos hb]
    by_cases hij : i = x ∧ j = y
    · rw [if_pos ⟨hij.1, hij.2, hb.1, hb.2⟩]
      simp [hij]
    · rw [if_neg (fun h => hij ⟨h.1, h.2.1⟩)]
      simp [hij]
  · rw [if_neg hb, if_neg (fun h => hb h.2.2)]

/-- The inner loop after its first `n` iterations. -/
theorem drawRow_upto (img : Image) (y : Nat) (c : RGBA) (n : Nat) :
    ((List.range n).foldl (fun im x => im.set x y c) img).width = img.width ∧
    ((List.range n).foldl (fun im x => im.set x y c) img).height = img.height ∧
    ∀ i j, ((List.range n).foldl (fun im x => im.set x y c) img).pix i j
      = if i < n ∧ i < img.width ∧ j = y ∧ y < img.height then c else img.pix i j := by
  induction n with
  | zero => simp
  | succ n ih =>
    obtain ⟨hw, hh, hp⟩ := ih
    rw [List.range_succ, List.foldl_append]
    simp only [List.foldl_cons, List.foldl_nil]
    refine ⟨by rw [Image.set_width, hw], by rw [Image.set_height, hh], ?_⟩
    intro i j
    rw [Image.set_pix, hp, hw, hh]
    by_cases h1 : i = n ∧ j = y ∧ n < img.width ∧ y < img.height
    · obtain ⟨rfl, rfl, h3, h4⟩ := h1
      simp [h3, h4]
    · rw [if_neg h1]
      by_cases h2 : i < n ∧ i < img.width ∧ j = y ∧ y < img.height
      · rw [if_pos h2, if_pos ⟨by omega, h2.2⟩]
      · rw [if_neg h2, if_neg]
        rintro ⟨h3, h4, h5, h6⟩
        rcases Nat.lt_succ_iff_lt_or_eq.1 h3 with h | h
        · exact h2 ⟨h, h4, h5, h6⟩
        · exact h1 ⟨h, h5, h ▸ h4, h6⟩

theorem drawRow_width (img : Image) (width y : Nat) (c : RGBA) :
    (drawRow img width y c).width = img.width :=
  (drawRow_upto img y c width).1

theorem drawRow_height (img : Image) (width y : Nat) (c : RGBA) :
    (drawRow img width y c).height = img.height :=
  (drawRow_upto img y c width).2.1

theorem drawRow_pix (img : Image) (width y : Nat) (c : RGBA) (i j : Nat) :
    (drawRow img width y c).pix i j
      = if i < width ∧ i < img.width ∧ j = y ∧ y < img.height then c else img.pix i j :=
  (drawRow_upto img y c width).2.2 i j

/-- The outer loop after its first `m` rows, for any row colouring `col`. -/
theorem drawRows_upto (img : Image) (width : Nat) (col : Nat → RGBA) (m : Nat) :
    ((List.range m).foldl (fun im y => drawRow im width y (col y)) img).width = img.width ∧
    ((List.range m).foldl (fun im y => drawRow im width y (col y)) img).height = img.height ∧
    ∀ i j, ((List.range m).foldl (fun im y => drawRow im width y (col y)) img).pix i j
      = if j < m ∧ j < img.height ∧ i < width ∧ i < img.width then col j
        else img.pix i j := by
  induction m with
  | zero => simp
  | succ m ih =>
    obtain ⟨hw, hh, hp⟩ := ih
    rw [List.range_succ, List.foldl_append]
    simp only [List.foldl_cons, List.foldl_nil]
    refine ⟨by rw [drawRow_width, hw], by rw [drawRow_height, hh], ?_⟩
    intro i j
    rw [drawRow_pix, hp, hw, hh]
    by_cases h1 : i < width ∧ i < img.width ∧ j = m ∧ m < img.height
    · obtain ⟨h2, h3, rfl, h4⟩ := h1
      simp [h2, h3, h4]
    · rw [if_neg h1]
      by_cases h2 : j < m ∧ j < img.height ∧ i < width ∧ i < img.width
      · rw [if_pos h2, if_pos ⟨by omega, h2.2⟩]
      · rw [if_neg h2, if_neg]
        rintro ⟨h3, h4, h5, h6⟩
        rcases Nat.lt_succ_iff_lt_or_eq.1 h3 with h | h
        · exact h2 ⟨h, h4, h5, h6⟩
        · exact h1 ⟨h5, h6, h, h ▸ h4⟩

/-- Every pixel of the buffer holds the row colour of its row after `drawGradient`. -/
theorem drawGradient_pix (img : Image) (startColor endColor : RGBA) (x y : Nat)
    (hx : x < img.width) (hy : y < img.height) :
    (drawGradient img startColor endColor).pix x y
      = lineColor startColor endColor y img.height := by
  unfold drawGradient
  simp only
  rw [(drawRows_upto img img.width
    (fun y => lineColor startColor endColor y img.height) img.height).2.2 x y]
  simp [hx, hy]

theorem drawGradient_size (img : Image) (startColor endColor : RGBA) :
    (drawGradient img startColor endColor).width = img.width ∧
      (drawGradient img startColor endColor).height = img.height :=
  ⟨(drawRows_upto img img.width _ img.height).1,
    (drawRows_upto img img.width _ img.height).2.1⟩

/-! ## Rounding to `float64` -/

theorem roundEven_intCast (n : ℤ) : roundEven (n : ℚ) = n := by
  simp [roundEven]

theorem roundEven_cases (x : ℚ) : roundEven x = ⌊x⌋ ∨ roundEven x = ⌊x⌋ + 1 := by
  unfold roundEven
  split_ifs <;> simp

/-- Rounding to an integer moves a number by at most a half. -/
theorem roundEven_sub_le (x : ℚ) : |(roundEven x : ℚ) - x| ≤ 1 / 2 := by
  have h1 : (⌊x⌋ : ℚ) ≤ x := Int.floor_le x
  have h2 : x < (⌊x⌋ : ℚ) + 1 := Int.lt_floor_add_one x
  unfold roundEven
  rw [abs_le]
  split_ifs with ha hb hc
  · constructor <;> linarith
  · push_cast; constructor <;> linarith
  · have : x - ⌊x⌋ = 1 / 2 := le_antisymm (not_lt.1 hb) (not_lt.1 ha)
    constructor <;> linarith
  · have : x - ⌊x⌋ = 1 / 2 := le_antisymm (not_lt.1 hb) (not_lt.1 ha)
    push_cast; constructor <;> linarith

theorem roundEven_eq_of_near (x : ℚ) (m : ℤ) (h1 : (m : ℚ) - 1 / 2 < x)
    (h2 : x < (m : ℚ) + 1 / 2) : roundEven x = m := by
  have h := abs_le.1 (roundEven_sub_le x)
  have ha : ((roundEven x - m : ℤ) : ℚ) < 1 := by push_cast; linarith [h.1, h.2]
  have hb : (-1 : ℚ) < ((roundEven x - m : ℤ) : ℚ) := by push_cast; linarith [h.1, h.2]
  have ha' : roundEven x - m < 1 := by exact_mod_cast ha
  have hb' : -1 < roundEven x - m := by exact_mod_cast hb
  omega

theorem roundEven_le_of_le (x : ℚ) (n : ℤ) (h : x ≤ n) : roundEven x ≤ n := by
  have hf : ⌊x⌋ ≤ n := Int.floor_le_iff.2 (by linarith)
  rcases roundEven_cases x with hr | hr
  · rw [hr]; exact hf
  · rw [hr]
    by_contra hcon
    have heq : ⌊x⌋ = n := by omega
    have hx : x = n := le_antisymm h (by rw [← heq]; exact Int.floor_le x)
    rw [hx, roundEven_intCast, Int.floor_intCast] at hr
    omega

theorem le_roundEven_of_le (x : ℚ) (n : ℤ) (h : (n : ℚ) ≤ x) : n ≤ roundEven x := by
  have hf : n ≤ ⌊x⌋ := Int.le_floor.2 h
  rcases roundEven_cases x with hr | hr <;> omega

theorem roundEven_mono {x y : ℚ} (h : x ≤ y) : roundEven x ≤ roundEven y := by
  have hf : ⌊x⌋ ≤ ⌊y⌋ := Int.floor_mono h
  rcases lt_or_eq_of_le hf with hlt | heq
  · have h1 : roundEven x ≤ ⌊x⌋ + 1 := by rcases roundEven_cases x with hr | hr <;> omega
    have h2 : ⌊y⌋ ≤ roundEven y := by rcases roundEven_cases y with hr | hr <;> omega
    omega
  · unfold roundEven
    rw [← heq]
    split_ifs <;> first | omega | (exfalso; linarith)


theorem fl_zero : fl 0 = 0 := by simp [fl]

theorem fl_of_pos (q : ℚ) (hq : 0 < q) :
    fl q = (roundEven (q / 2 ^ (Int.log 2 q - 52)) : ℚ) * 2 ^ (Int.log 2 q - 52) := by
  unfold fl
  rw [if_neg hq.ne', abs_of_pos hq]

theorem two_zpow_pos (k : ℤ) : (0 : ℚ) < 2 ^ k := zpow_pos (by norm_num) k

theorem two_zpow_split (L : ℤ) : (2 : ℚ) ^ L = 2 ^ (52 : ℕ) * 2 ^ (L - 52) := by
  have h : L = (52 : ℤ) + (L - 52) := by ring
  conv_lhs => rw [h]
  rw [zpow_add₀ (by norm_num : (2 : ℚ) ≠ 0)]
  norm_cast

theorem two_zpow_succ_split (L : ℤ) : (2 : ℚ) ^ (L + 1) = 2 ^ (53 : ℕ) * 2 ^ (L - 52) := by
  have h : L + 1 = (53 : ℤ) + (L - 52) := by ring
  rw [h, zpow_add₀ (by norm_num : (2 : ℚ) ≠ 0)]
  norm_cast

theorem log_le_self (q : ℚ) (hq : 0 < q) : (2 : ℚ) ^ Int.log 2 q ≤ q := by
  have h := Int.zpow_log_le_self (R := ℚ) (b := 2) (by norm_num) hq
  simpa using h

theorem self_lt_log_succ (q : ℚ) : q < (2 : ℚ) ^ (Int.log 2 q + 1) := by
  have h := Int.lt_zpow_succ_log_self (R := ℚ) (b := 2) (by norm_num) q
  simpa using h

/-- The significand of a positive number has 53 bits. -/
theorem scaled_bounds (q : ℚ) (hq : 0 < q) :
    (2 : ℚ) ^ (52 : ℕ) ≤ q / 2 ^ (Int.log 2 q - 52) ∧
      q / 2 ^ (Int.log 2 q - 52) < 2 ^ (53 : ℕ) := by
  have hp := two_zpow_pos (Int.log 2 q - 52)
  constructor
  · rw [le_div_iff₀ hp, ← two_zpow_split]
    exact log_le_self q hq
  · rw [div_lt_iff₀ hp, ← two_zpow_succ_split]
    exact self_lt_log_succ q

/-- Relative error of one rounding: at most `2^-53`. -/
theorem fl_rel (q : ℚ) (hq : 0 ≤ q) :
    q * (1 - 1 / 2 ^ (53 : ℕ)) ≤ fl q ∧ fl q ≤ q * (1 + 1 / 2 ^ (53 : ℕ)) := by
  rcases eq_or_lt_of_le hq with h0 | hpos
  · rw [← h0, fl_zero]; simp
  · have hp := two_zpow_pos (Int.log 2 q - 52)
    have hr := abs_le.1 (roundEven_sub_le (q / 2 ^ (Int.log 2 q - 52)))
    have hs := (scaled_bounds q hpos).1
    rw [fl_of_pos q hpos]
    set e := (2 : ℚ) ^ (Int.log 2 q - 52) with he
    set x := q / e with hx
    have hq' : q = x * e := by rw [hx]; field_simp
    have hx52 : (2 : ℚ) ^ (52 : ℕ) ≤ x := hs
    have hxpos : 0 < x := lt_of_lt_of_le (by positivity) hx52
    have hhalf : (1 : ℚ) / 2 ≤ x * (1 / 2 ^ (53 : ℕ)) := by
      have : (1 : ℚ) / 2 = 2 ^ (52 : ℕ) * (1 / 2 ^ (53 : ℕ)) := by norm_num
      rw [this]
      exact mul_le_mul_of_nonneg_right hx52 (by positivity)
    constructor
    · have : x * (1 - 1 / 2 ^ (53 : ℕ)) ≤ (roundEven x : ℚ) := by linarith [hr.1]
      calc q * (1 - 1 / 2 ^ (53 : ℕ)) = (x * (1 - 1 / 2 ^ (53 : ℕ))) * e := by rw [hq']; ring
        _ ≤ (roundEven x : ℚ) * e := mul_le_mul_of_nonneg_right this hp.le
    · have : (roundEven x : ℚ) ≤ x * (1 + 1 / 2 ^ (53 : ℕ)) := by linarith [hr.2]
      calc (roundEven x : ℚ) * e ≤ (x * (1 + 1 / 2 ^ (53 : ℕ))) * e :=
            mul_le_mul_of_nonneg_right this hp.le
        _ = q * (1 + 1 / 2 ^ (53 : ℕ)) := by rw [hq']; ring

theorem fl_nonneg (q : ℚ) (hq : 0 ≤ q) : 0 ≤ fl q := by
  have h := (fl_rel q hq).1
  have : (0 : ℚ) ≤ q * (1 - 1 / 2 ^ (53 : ℕ)) := mul_nonneg hq (by norm_num)
  linarith

/-- A positive number with a significand of at most 53 bits is not changed. -/
theorem fl_exact (m : ℕ) (k : ℤ) (hm : m < 2 ^ 53) : fl ((m : ℚ) * 2 ^ k) = (m : ℚ) * 2 ^ k := by
  rcases Nat.eq_zero_or_pos m with h0 | hpos
  · subst h0; simp [fl_zero]
  · have hk := two_zpow_pos k
    have hq : (0 : ℚ) < (m : ℚ) * 2 ^ k := mul_pos (by exact_mod_cast hpos) hk
    have hle : Int.log 2 ((m : ℚ) * 2 ^ k) - 52 ≤ k := by
      by_contra hcon
      have h1 : k + 53 ≤ Int.log 2 ((m : ℚ) * 2 ^ k) := by omega
      have h2 : (2 : ℚ) ^ (k + 53) ≤ (2 : ℚ) ^ Int.log 2 ((m : ℚ) * 2 ^ k) :=
        zpow_le_zpow_right₀ (by norm_num) h1
      have h3 := log_le_self _ hq
      have h4 : (m : ℚ) * 2 ^ k < (2 : ℚ) ^ (k + 53) := by
        rw [zpow_add₀ (by norm_num : (2 : ℚ) ≠ 0), mul_comm]
        have : (m : ℚ) < 2 ^ (53 : ℤ) := by exact_mod_cast hm
        exact mul_lt_mul_of_pos_left this hk
      linarith
    rw [fl_of_pos _ hq]
    generalize Int.log 2 ((m : ℚ) * 2 ^ k) - 52 = e at hle ⊢
    obtain ⟨n, hn⟩ := Int.eq_ofNat_of_zero_le (by omega : 0 ≤ k - e)
    have hk' : k = e + n := by omega
    subst hk'
    have he := two_zpow_pos e
    have hsc : (m : ℚ) * 2 ^ (e + (n : ℤ)) / 2 ^ e = ((m * 2 ^ n : ℤ) : ℚ) := by
      rw [zpow_add₀ (by norm_num : (2 : ℚ) ≠ 0), zpow_natCast]
      field_simp
      ring
    rw [hsc, roundEven_intCast, zpow_add₀ (by norm_num : (2 : ℚ) ≠ 0), zpow_natCast]
    push_cast
    ring

theorem fl_natCast (n : ℕ) (hn : n < 2 ^ 53) : fl (n : ℚ) = n := by
  have h := fl_exact n 0 hn
  simpa using h

theorem fl_one : fl 1 = 1 := by
  have h := fl_natCast 1 (by norm_num)
  simpa using h


/-- The result of a rounding whose scaled value is within a half of an integer with a
53-bit significand. -/
theorem fl_eq_of_near (q : ℚ) (m e : ℤ) (h1 : (2 : ℚ) ^ (52 : ℕ) * 2 ^ e ≤ q)
    (h2 : q < (2 : ℚ) ^ (53 : ℕ) * 2 ^ e) (h3 : ((m : ℚ) - 1 / 2) * 2 ^ e < q)
    (h4 : q < ((m : ℚ) + 1 / 2) * 2 ^ e) : fl q = (m : ℚ) * 2 ^ e := by
  have he := two_zpow_pos e
  have hq : 0 < q := lt_of_lt_of_le (by positivity) h1
  have hlog : Int.log 2 q = e + 52 := by
    have ha : e + 52 ≤ Int.log 2 q := by
      rw [← Int.zpow_le_iff_le_log (by norm_num) hq]
      have : (2 : ℚ) ^ (e + 52) = 2 ^ (52 : ℕ) * 2 ^ e := by
        rw [zpow_add₀ (by norm_num : (2 : ℚ) ≠ 0), mul_comm]; norm_cast
      simpa [this] using h1
    have hb : Int.log 2 q < e + 53 := by
      rw [← Int.lt_zpow_iff_log_lt (by norm_num) hq]
      have : (2 : ℚ) ^ (e + 53) = 2 ^ (53 : ℕ) * 2 ^ e := by
        rw [zpow_add₀ (by norm_num : (2 : ℚ) ≠ 0), mul_comm]; norm_cast
      simpa [this] using h2
    omega
  rw [fl_of_pos q hq, hlog]
  have hee : e + 52 - 52 = e := by ring
  rw [hee, roundEven_eq_of_near (q / 2 ^ e) m]
  · rw [lt_div_iff₀ he]; exact h3
  · rw [div_lt_iff₀ he]; exact h4

/-- Rounding is monotone on the non-negative numbers. -/
theorem fl_mono {p q : ℚ} (hp : 0 ≤ p) (hpq : p ≤ q) : fl p ≤ fl q := by
  rcases eq_or_lt_of_le hp with h0 | hpos
  · rw [← h0, fl_zero]; exact fl_nonneg q (le_trans hp hpq)
  · have hqpos : 0 < q := lt_of_lt_of_le hpos hpq
    have hlog : Int.log 2 p ≤ Int.log 2 q := Int.log_mono_right hpos hpq
    rw [fl_of_pos p hpos, fl_of_pos q hqpos]
    rcases lt_or_eq_of_le hlog with hlt | heq
    · have hp1 : (roundEven (p / 2 ^ (Int.log 2 p - 52)) : ℚ) ≤ 2 ^ (53 : ℕ) := by
        have := roundEven_le_of_le (p / 2 ^ (Int.log 2 p - 52)) (2 ^ 53)
          (by push_cast; exact (scaled_bounds p hpos).2.le)
        exact_mod_cast this
      have hq1 : (2 : ℚ) ^ (52 : ℕ) ≤ (roundEven (q / 2 ^ (Int.log 2 q - 52)) : ℚ) := by
        have := le_roundEven_of_le (q / 2 ^ (Int.log 2 q - 52)) (2 ^ 52)
          (by push_cast; exact (scaled_bounds q hqpos).1)
        exact_mod_cast this
      calc (roundEven (p / 2 ^ (Int.log 2 p - 52)) : ℚ) * 2 ^ (Int.log 2 p - 52)
          ≤ 2 ^ (53 : ℕ) * 2 ^ (Int.log 2 p - 52) :=
            mul_le_mul_of_nonneg_right hp1 (two_zpow_pos _).le
        _ = 2 ^ (Int.log 2 p + 1) := (two_zpow_succ_split _).symm
        _ ≤ 2 ^ Int.log 2 q := zpow_le_zpow_right₀ (by norm_num) (by omega)
        _ = 2 ^ (52 : ℕ) * 2 ^ (Int.log 2 q - 52) := two_zpow_split _
        _ ≤ (roundEven (q / 2 ^ (Int.log 2 q - 52)) : ℚ) * 2 ^ (Int.log 2 q - 52) :=
            mul_le_mul_of_nonneg_right hq1 (two_zpow_pos _).le
    · rw [heq]
      have he := two_zpow_pos (Int.log 2 q - 52)
      have hx : p / 2 ^ (Int.log 2 q - 52) ≤ q / 2 ^ (Int.log 2 q - 52) :=
        div_le_div_of_nonneg_right hpq he.le
      have := roundEven_mono hx
      exact mul_le_mul_of_nonneg_right (by exact_mod_cast this) he.le


/-! ## The gradient: rounding errors of the row colour -/

theorem fl_le_one (q : ℚ) (h0 : 0 ≤ q) (h1 : q ≤ 1) : fl q ≤ 1 := by
  have := fl_mono h0 h1
  rwa [fl_one] at this

theorem one_le_fl_natCast (n : ℕ) (hn : 0 < n) : 1 ≤ fl (n : ℚ) := by
  have := fl_mono (p := 1) (q := (n : ℚ)) (by norm_num) (by exact_mod_cast hn)
  rwa [fl_one] at this

theorem ratio_nonneg (y H : Nat) : 0 ≤ ratio y H := by
  unfold ratio fdiv
  apply fl_nonneg
  exact div_nonneg (fl_nonneg _ (Nat.cast_nonneg y)) (fl_nonneg _ (Nat.cast_nonneg H))

theorem ratio_le_one (y H : Nat) (hy : y < H) : ratio y H ≤ 1 := by
  unfold ratio fdiv
  have hH : 1 ≤ fl (H : ℚ) := one_le_fl_natCast H (by omega)
  have hyH : fl (y : ℚ) ≤ fl (H : ℚ) :=
    fl_mono (Nat.cast_nonneg y) (by exact_mod_cast hy.le)
  apply fl_le_one
  · exact div_nonneg (fl_nonneg _ (Nat.cast_nonneg y)) (by linarith)
  · rw [div_le_one (by linarith)]; exact hyH

/-- Three roundings of relative error `u` around a convex combination. -/
theorem lerp_rounding (S E r a p1 p2 v u : ℚ) (hS : 0 ≤ S) (hE : 0 ≤ E) (hr0 : 0 ≤ r)
    (hr1 : r ≤ 1) (hu0 : 0 ≤ u) (hu1 : u ≤ 1)
    (ha : (1 - r) * (1 - u) ≤ a ∧ a ≤ (1 - r) * (1 + u))
    (hp1 : S * a * (1 - u) ≤ p1 ∧ p1 ≤ S * a * (1 + u))
    (hp2 : E * r * (1 - u) ≤ p2 ∧ p2 ≤ E * r * (1 + u))
    (hv : (p1 + p2) * (1 - u) ≤ v ∧ v ≤ (p1 + p2) * (1 + u)) :
    (S * (1 - r) + E * r) * (1 - u) ^ 3 ≤ v ∧ v ≤ (S * (1 - r) + E * r) * (1 + u) ^ 3 := by
  have h1r : 0 ≤ 1 - r := by linarith
  have h1u : 0 ≤ 1 - u := by linarith
  have hEr : 0 ≤ E * r := mul_nonneg hE hr0
  have hS1r : 0 ≤ S * (1 - r) := mul_nonneg hS h1r
  constructor
  · have e1 : S * (1 - r) * (1 - u) ≤ S * a := by
      have := mul_le_mul_of_nonneg_left ha.1 hS
      linarith
    have e2 : S * (1 - r) * (1 - u) ^ 2 ≤ p1 := by
      have := mul_le_mul_of_nonneg_right e1 h1u
      nlinarith [hp1.1]
    have e3 : E * r * (1 - u) ^ 2 ≤ p2 := by
      have h : E * r * (1 - u) ^ 2 ≤ E * r * (1 - u) := by
        have : (1 - u) ^ 2 ≤ 1 - u := by nlinarith
        exact mul_le_mul_of_nonneg_left this hEr
      linarith [hp2.1]
    have e4 : (S * (1 - r) + E * r) * (1 - u) ^ 2 ≤ p1 + p2 := by linarith
    have e5 := mul_le_mul_of_nonneg_right e4 h1u
    calc (S * (1 - r) + E * r) * (1 - u) ^ 3
        = (S * (1 - r) + E * r) * (1 - u) ^ 2 * (1 - u) := by ring
      _ ≤ (p1 + p2) * (1 - u) := e5
      _ ≤ v := hv.1
  · have h1u' : 0 ≤ 1 + u := by linarith
    have e1 : S * a ≤ S * (1 - r) * (1 + u) := by
      have := mul_le_mul_of_nonneg_left ha.2 hS
      linarith
    have e2 : p1 ≤ S * (1 - r) * (1 + u) ^ 2 := by
      have := mul_le_mul_of_nonneg_right e1 h1u'
      nlinarith [hp1.2]
    have e3 : p2 ≤ E * r * (1 + u) ^ 2 := by
      have h : E * r * (1 + u) ≤ E * r * (1 + u) ^ 2 := by
        have : 1 + u ≤ (1 + u) ^ 2 := by nlinarith
        exact mul_le_mul_of_nonneg_left this hEr
      linarith [hp2.2]
    have e4 : p1 + p2 ≤ (S * (1 - r) + E * r) * (1 + u) ^ 2 := by linarith
    have e5 := mul_le_mul_of_nonneg_right e4 h1u'
    calc v ≤ (p1 + p2) * (1 + u) := hv.2
      _ ≤ (S * (1 - r) + E * r) * (1 + u) ^ 2 * (1 + u) := e5
      _ = (S * (1 - r) + E * r) * (1 + u) ^ 3 := by ring

/-- The value of a channel is the rounded convex combination at the rounded ratio. -/
theorem channelValue_rounding (S E : Fin 256) (y H : Nat) (hy : y < H) :
    ((S.val : ℚ) * (1 - ratio y H) + (E.val : ℚ) * ratio y H) * (1 - 1 / 2 ^ (53 : ℕ)) ^ 3
        ≤ channelValue S E y H ∧
      channelValue S E y H
        ≤ ((S.val : ℚ) * (1 - ratio y H) + (E.val : ℚ) * ratio y H)
            * (1 + 1 / 2 ^ (53 : ℕ)) ^ 3 := by
  have hr0 := ratio_nonneg y H
  have hr1 := ratio_le_one y H hy
  have hS : (0 : ℚ) ≤ (S.val : ℚ) := Nat.cast_nonneg _
  have hE : (0 : ℚ) ≤ (E.val : ℚ) := Nat.cast_nonneg _
  have ha0 : 0 ≤ fl (1 - ratio y H) := fl_nonneg _ (by linarith)
  have hp1 : 0 ≤ fl ((S.val : ℚ) * fl (1 - ratio y H)) := fl_nonneg _ (mul_nonneg hS ha0)
  have hp2 : 0 ≤ fl ((E.val : ℚ) * ratio y H) := fl_nonneg _ (mul_nonneg hE hr0)
  unfold channelValue fadd fmul fsub
  exact lerp_rounding _ _ _ _ _ _ _ _ hS hE hr0 hr1 (by norm_num) (by norm_num)
    (fl_rel _ (by linarith)) (fl_rel _ (mul_nonneg hS ha0)) (fl_rel _ (mul_nonneg hE hr0))
    (fl_rel _ (add_nonneg hp1 hp2))


/-- Conversion to 8 bits of a value in the range of `uint8` is its integer part. -/
theorem uint8_val (q : ℚ) (h0 : 0 ≤ q) (h1 : q < 256) : ((uint8 q).val : ℤ) = ⌊q⌋ := by
  have hf0 : 0 ≤ ⌊q⌋ := Int.floor_nonneg.2 h0
  have hf1 : ⌊q⌋ < 256 := Int.floor_lt.2 (by exact_mod_cast h1)
  unfold uint8 truncate
  simp only [if_pos h0]
  omega

/-- The value of a channel lies between the smaller and the larger of the two colours,
up to the rounding errors. -/
theorem channelValue_bounds (S E : Fin 256) (y H : Nat) (hy : y < H) :
    (min S.val E.val : ℚ) - 1 / 2 ^ (43 : ℕ) ≤ channelValue S E y H ∧
      channelValue S E y H ≤ (max S.val E.val : ℚ) + 1 / 2 ^ (43 : ℕ) := by
  obtain ⟨hlo, hhi⟩ := channelValue_rounding S E y H hy
  have hr0 := ratio_nonneg y H
  have hr1 := ratio_le_one y H hy
  have hS : (S.val : ℚ) ≤ 255 := by exact_mod_cast Nat.le_of_lt_succ S.isLt
  have hE : (E.val : ℚ) ≤ 255 := by exact_mod_cast Nat.le_of_lt_succ E.isLt
  have hS0 : (0 : ℚ) ≤ (S.val : ℚ) := Nat.cast_nonneg _
  have hE0 : (0 : ℚ) ≤ (E.val : ℚ) := Nat.cast_nonneg _
  have hmS : (min S.val E.val : ℚ) ≤ S.val := min_le_left _ _
  have hmE : (min S.val E.val : ℚ) ≤ E.val := min_le_right _ _
  have hMS : (S.val : ℚ) ≤ max (S.val : ℚ) E.val := le_max_left _ _
  have hME : (E.val : ℚ) ≤ max (S.val : ℚ) E.val := le_max_right _ _
  have hm0 : (0 : ℚ) ≤ min (S.val : ℚ) E.val := le_min hS0 hE0
  have hM255 : max (S.val : ℚ) E.val ≤ 255 := max_le hS hE
  generalize (min (S.val : ℚ) E.val) = m at hmS hmE hm0 ⊢
  generalize (max (S.val : ℚ) E.val) = M at hMS hME hM255 ⊢
  generalize ratio y H = r at hlo hhi hr0 hr1
  generalize channelValue S E y H = v at hlo hhi ⊢
  generalize (S.val : ℚ) = s at *
  generalize (E.val : ℚ) = e at *
  have hw1 : m ≤ s * (1 - r) + e * r := by nlinarith
  have hw2 : s * (1 - r) + e * r ≤ M := by nlinarith
  have hw0 : 0 ≤ s * (1 - r) + e * r := le_trans hm0 hw1
  have hc1 : (1 : ℚ) - 3 / 2 ^ (53 : ℕ) ≤ (1 - 1 / 2 ^ (53 : ℕ)) ^ 3 := by norm_num
  have hc2 : (1 + 1 / 2 ^ (53 : ℕ) : ℚ) ^ 3 ≤ 1 + 4 / 2 ^ (53 : ℕ) := by norm_num
  constructor
  · have h1 : (s * (1 - r) + e * r) * (1 - 3 / 2 ^ (53 : ℕ)) ≤ v :=
      le_trans (mul_le_mul_of_nonneg_left hc1 hw0) hlo
    have h2 : (s * (1 - r) + e * r) * (3 / 2 ^ (53 : ℕ)) ≤ 255 * (3 / 2 ^ (53 : ℕ)) :=
      mul_le_mul_of_nonneg_right (le_trans hw2 hM255) (by norm_num)
    have h3 : (255 : ℚ) * (3 / 2 ^ (53 : ℕ)) ≤ 1 / 2 ^ (43 : ℕ) := by norm_num
    linarith
  · have h1 : v ≤ (s * (1 - r) + e * r) * (1 + 4 / 2 ^ (53 : ℕ)) :=
      le_trans hhi (mul_le_mul_of_nonneg_left hc2 hw0)
    have h2 : (s * (1 - r) + e * r) * (4 / 2 ^ (53 : ℕ)) ≤ 255 * (4 / 2 ^ (53 : ℕ)) :=
      mul_le_mul_of_nonneg_right (le_trans hw2 hM255) (by norm_num)
    have h3 : (255 : ℚ) * (4 / 2 ^ (53 : ℕ)) ≤ 1 / 2 ^ (43 : ℕ) := by norm_num
    linarith

theorem channelValue_range (S E : Fin 256) (y H : Nat) (hy : y < H) :
    0 ≤ channelValue S E y H ∧ channelValue S E y H < 256 := by
  have hr0 := ratio_nonneg y H
  have hr1 := ratio_le_one y H hy
  have hS0 : (0 : ℚ) ≤ (S.val : ℚ) := Nat.cast_nonneg _
  have hE0 : (0 : ℚ) ≤ (E.val : ℚ) := Nat.cast_nonneg _
  constructor
  · unfold channelValue fadd fmul fsub
    exact fl_nonneg _ (add_nonneg
      (fl_nonneg _ (mul_nonneg hS0 (fl_nonneg _ (by linarith))))
      (fl_nonneg _ (mul_nonneg hE0 hr0)))
  · have h := (channelValue_bounds S E y H hy).2
    have hS : (S.val : ℚ) ≤ 255 := by exact_mod_cast Nat.le_of_lt_succ S.isLt
    have hE : (E.val : ℚ) ≤ 255 := by exact_mod_cast Nat.le_of_lt_succ E.isLt
    have hM : max (S.val : ℚ) E.val ≤ 255 := max_le hS hE
    have : (1 : ℚ) / 2 ^ (43 : ℕ) < 1 := by norm_num
    linarith


theorem ratio_zero (H : Nat) : ratio 0 H = 0 := by
  simp [ratio, fdiv, fl_zero]

theorem channelValue_first (S E : Fin 256) (H : Nat) : channelValue S E 0 H = (S.val : ℚ) := by
  have hS : fl (S.val : ℚ) = S.val :=
    fl_natCast S.val (lt_trans S.isLt (by norm_num))
  simp [channelValue, fadd, fsub, fmul, ratio_zero, fl_zero, fl_one, hS]

/-- In row 0 the channel is the start value. -/
theorem channel_first (S E : Fin 256) (H : Nat) : channel S E 0 H = S := by
  apply Fin.ext
  have hS : (S.val : ℚ) < 256 := by exact_mod_cast S.isLt
  have h := uint8_val (S.val : ℚ) (Nat.cast_nonneg _) hS
  rw [Int.floor_natCast] at h
  unfold channel
  rw [channelValue_first]
  exact_mod_cast h

/-- The rounded ratio of the last row is within `3 * 2^-53` of `1 - 1/H` from below. -/
theorem ratio_last (H : Nat) (hH : 0 < H) :
    1 - ratio (H - 1) H ≤ 1 / (H : ℚ) + 3 / 2 ^ (53 : ℕ) := by
  have hHq : (0 : ℚ) < (H : ℚ) := by exact_mod_cast hH
  have hy0 : (0 : ℚ) ≤ ((H - 1 : ℕ) : ℚ) := Nat.cast_nonneg _
  have hyq : ((H - 1 : ℕ) : ℚ) = (H : ℚ) - 1 := by
    rw [Nat.cast_sub hH]; simp
  have hfy := (fl_rel ((H - 1 : ℕ) : ℚ) hy0).1
  have hfH := (fl_rel (H : ℚ) hHq.le).2
  have hfH1 : 1 ≤ fl (H : ℚ) := one_le_fl_natCast H hH
  have hfy0 : 0 ≤ fl ((H - 1 : ℕ) : ℚ) := fl_nonneg _ hy0
  have ht0 : 0 ≤ fl ((H - 1 : ℕ) : ℚ) / fl (H : ℚ) := div_nonneg hfy0 (by linarith)
  have hr := (fl_rel _ ht0).1
  have htH : fl ((H - 1 : ℕ) : ℚ) / fl (H : ℚ) * fl (H : ℚ) = fl ((H - 1 : ℕ) : ℚ) := by
    field_simp
  unfold ratio fdiv
  generalize fl ((H - 1 : ℕ) : ℚ) / fl (H : ℚ) = t at ht0 hr htH ⊢
  generalize fl t = r at hr ⊢
  generalize fl ((H - 1 : ℕ) : ℚ) = fy at hfy htH
  generalize fl (H : ℚ) = fH at hfH hfH1 htH
  rw [hyq] at hfy
  generalize (H : ℚ) = h at *
  -- t * h * (1 + u) ≥ t * fH = fy ≥ (h - 1) * (1 - u)
  have h1 : (h - 1) * (1 - 1 / 2 ^ (53 : ℕ)) ≤ t * (h * (1 + 1 / 2 ^ (53 : ℕ))) := by
    have := mul_le_mul_of_nonneg_left hfH ht0
    linarith
  -- hence t * h ≥ (h - 1) * (1 - 2u)
  have h2 : (h - 1) * (1 - 2 / 2 ^ (53 : ℕ)) ≤ t * h := by
    have hc : (1 - 2 / 2 ^ (53 : ℕ) : ℚ) * (1 + 1 / 2 ^ (53 : ℕ)) ≤ 1 - 1 / 2 ^ (53 : ℕ) := by
      norm_num
    have hh1 : 0 ≤ h - 1 ∨ h - 1 < 0 := le_or_lt 0 (h - 1)
    have hpos : (0 : ℚ) < 1 + 1 / 2 ^ (53 : ℕ) := by norm_num
    have hth : 0 ≤ t * h := mul_nonneg ht0 hHq.le
    rcases hh1 with hh | hh
    · have h3 : (h - 1) * (1 - 2 / 2 ^ (53 : ℕ)) * (1 + 1 / 2 ^ (53 : ℕ))
          ≤ t * h * (1 + 1 / 2 ^ (53 : ℕ)) := by
        have := mul_le_mul_of_nonneg_left hc hh
        linarith
      exact le_of_mul_le_mul_right h3 hpos
    · have : (h - 1) * (1 - 2 / 2 ^ (53 : ℕ)) ≤ 0 :=
        mul_nonpos_of_nonpos_of_nonneg hh.le (by norm_num)
      linarith
  -- r ≥ t * (1 - u), so r * h ≥ (h - 1) * (1 - 3u)
  have h4 : (h - 1) * (1 - 3 / 2 ^ (53 : ℕ)) ≤ r * h := by
    have hth : 0 ≤ t * h := mul_nonneg ht0 hHq.le
    have h5 : t * h * (1 - 1 / 2 ^ (53 : ℕ)) ≤ r * h := by
      have := mul_le_mul_of_nonneg_right hr hHq.le
      linarith
    have hh1 : 0 ≤ h - 1 ∨ h - 1 < 0 := le_or_lt 0 (h - 1)
    rcases hh1 with hh | hh
    · have hc : (1 - 3 / 2 ^ (53 : ℕ) : ℚ)
          ≤ (1 - 2 / 2 ^ (53 : ℕ)) * (1 - 1 / 2 ^ (53 : ℕ)) := by norm_num
      have h6 := mul_le_mul_of_nonneg_left hc hh
      have h7 := mul_le_mul_of_nonneg_right h2 (by norm_num : (0 : ℚ) ≤ 1 - 1 / 2 ^ (53 : ℕ))
      linarith
    · have : (h - 1) * (1 - 3 / 2 ^ (53 : ℕ)) ≤ 0 :=
        mul_nonpos_of_nonpos_of_nonneg hh.le (by norm_num)
      have hr0 : 0 ≤ t * h * (1 - 1 / 2 ^ (53 : ℕ)) := mul_nonneg hth (by norm_num)
      linarith
  -- divide by h
  have h8 : 1 - r ≤ (1 + 3 / 2 ^ (53 : ℕ) * h) / h := by
    rw [le_div_iff₀ hHq]
    nlinarith
  calc 1 - r ≤ (1 + 3 / 2 ^ (53 : ℕ) * h) / h := h8
    _ = 1 / h + 3 / 2 ^ (53 : ℕ) := by
      rw [add_div, mul_div_assoc, div_self hHq.ne', mul_one]


/-- The value of the last row is less than one away from the end value when the two
values differ by less than the height. -/
theorem channelValue_last (S E : Fin 256) (H : Nat) (hH : 0 < H) (hc : closer S E H) :
    (E.val : ℚ) - 1 < channelValue S E (H - 1) H ∧
      channelValue S E (H - 1) H < (E.val : ℚ) + 1 := by
  obtain ⟨hlo, hhi⟩ := channelValue_rounding S E (H - 1) H (by omega)
  have hr0 := ratio_nonneg (H - 1) H
  have hr1 := ratio_le_one (H - 1) H (by omega)
  have hlast := ratio_last H hH
  have hHq : (0 : ℚ) < (H : ℚ) := by exact_mod_cast hH
  have hS : (S.val : ℚ) ≤ 255 := by exact_mod_cast Nat.le_of_lt_succ S.isLt
  have hE : (E.val : ℚ) ≤ 255 := by exact_mod_cast Nat.le_of_lt_succ E.isLt
  have hS0 : (0 : ℚ) ≤ (S.val : ℚ) := Nat.cast_nonneg _
  have hE0 : (0 : ℚ) ≤ (E.val : ℚ) := Nat.cast_nonneg _
  -- the two values differ by at most 255/256 of the height
  have hd1 : ((S.val : ℚ) - E.val) * 256 ≤ 255 * (H : ℚ) := by
    have h1 : S.val * 256 ≤ E.val * 256 + 255 * H := by
      have := hc.1; have := S.isLt; omega
    have h2 : ((S.val * 256 : ℕ) : ℚ) ≤ ((E.val * 256 + 255 * H : ℕ) : ℚ) := by
      exact_mod_cast h1
    push_cast at h2
    linarith
  have hd2 : ((E.val : ℚ) - S.val) * 256 ≤ 255 * (H : ℚ) := by
    have h1 : E.val * 256 ≤ S.val * 256 + 255 * H := by
      have := hc.2; have := E.isLt; omega
    have h2 : ((E.val * 256 : ℕ) : ℚ) ≤ ((S.val * 256 + 255 * H : ℕ) : ℚ) := by
      exact_mod_cast h1
    push_cast at h2
    linarith
  generalize ratio (H - 1) H = r at hlo hhi hr0 hr1 hlast
  generalize channelValue S E (H - 1) H = v at hlo hhi ⊢
  generalize (S.val : ℚ) = s at *
  generalize (E.val : ℚ) = e at *
  generalize (H : ℚ) = h at *
  have h1r : 0 ≤ 1 - r := by linarith
  -- (s - e) * (1 - r) and (e - s) * (1 - r) are at most 255/256 + 765 u
  have hinv : 1 / h * h = 1 := by field_simp
  have key : ∀ d : ℚ, d ≤ 255 → d * 256 ≤ 255 * h →
      d * (1 - r) ≤ 255 / 256 + 765 / 2 ^ (53 : ℕ) := by
    intro d hd255 hdh
    rcases le_or_lt d 0 with hneg | hpos
    · have : d * (1 - r) ≤ 0 := mul_nonpos_of_nonpos_of_nonneg hneg h1r
      have : (0 : ℚ) ≤ 255 / 256 + 765 / 2 ^ (53 : ℕ) := by norm_num
      linarith
    · have e1 : d * (1 - r) ≤ d * (1 / h + 3 / 2 ^ (53 : ℕ)) :=
        mul_le_mul_of_nonneg_left hlast hpos.le
      have e2 : d * (1 / h) ≤ 255 / 256 := by
        have hh : 0 < 1 / h := by positivity
        have := mul_le_mul_of_nonneg_right hdh hh.le
        have e3 : 255 * h * (1 / h) = 255 := by field_simp
        have e4 : d * 256 * (1 / h) = 256 * (d * (1 / h)) := by ring
        rw [e3, e4] at this
        linarith
      have e5 : d * (3 / 2 ^ (53 : ℕ)) ≤ 255 * (3 / 2 ^ (53 : ℕ)) :=
        mul_le_mul_of_nonneg_right hd255 (by norm_num)
      have e6 : (255 : ℚ) * (3 / 2 ^ (53 : ℕ)) = 765 / 2 ^ (53 : ℕ) := by norm_num
      linarith
  have k1 := key (s - e) (by linarith) hd1
  have k2 := key (e - s) (by linarith) hd2
  have hw : s * (1 - r) + e * r = e + (s - e) * (1 - r) := by ring
  have hw0 : 0 ≤ s * (1 - r) + e * r := add_nonneg (mul_nonneg hS0 h1r) (mul_nonneg hE0 hr0)
  have hw255 : s * (1 - r) + e * r ≤ 255 := by nlinarith
  have hc1 : (1 : ℚ) - 3 / 2 ^ (53 : ℕ) ≤ (1 - 1 / 2 ^ (53 : ℕ)) ^ 3 := by norm_num
  have hc2 : (1 + 1 / 2 ^ (53 : ℕ) : ℚ) ^ 3 ≤ 1 + 4 / 2 ^ (53 : ℕ) := by norm_num
  have hlo' : (s * (1 - r) + e * r) * (1 - 3 / 2 ^ (53 : ℕ)) ≤ v :=
    le_trans (mul_le_mul_of_nonneg_left hc1 hw0) hlo
  have hhi' : v ≤ (s * (1 - r) + e * r) * (1 + 4 / 2 ^ (53 : ℕ)) :=
    le_trans hhi (mul_le_mul_of_nonneg_left hc2 hw0)
  have ha : (s * (1 - r) + e * r) * (3 / 2 ^ (53 : ℕ)) ≤ 255 * (3 / 2 ^ (53 : ℕ)) :=
    mul_le_mul_of_nonneg_right hw255 (by norm_num)
  have hb : (s * (1 - r) + e * r) * (4 / 2 ^ (53 : ℕ)) ≤ 255 * (4 / 2 ^ (53 : ℕ)) :=
    mul_le_mul_of_nonneg_right hw255 (by norm_num)
  have hn1 : (255 : ℚ) / 256 + 765 / 2 ^ (53 : ℕ) + 255 * (3 / 2 ^ (53 : ℕ)) < 1 := by norm_num
  have hn2 : (255 : ℚ) / 256 + 765 / 2 ^ (53 : ℕ) + 255 * (4 / 2 ^ (53 : ℕ)) < 1 := by norm_num
  constructor
  · have : e - (255 / 256 + 765 / 2 ^ (53 : ℕ)) ≤ s * (1 - r) + e * r := by
      rw [hw]; linarith
    linarith
  · have : s * (1 - r) + e * r ≤ e + (255 / 256 + 765 / 2 ^ (53 : ℕ)) := by
      rw [hw]; linarith
    linarith

/-- The channel as an integer: the integer part of its value. -/
theorem channel_val_floor (S E : Fin 256) (y H : Nat) (hy : y < H) :
    ((channel S E y H).val : ℤ) = ⌊channelValue S E y H⌋ := by
  obtain ⟨h0, h1⟩ := channelValue_range S E y H hy
  exact uint8_val _ h0 h1

/-- In the last row the channel is within one of the end value when the two values
differ by less than the height. -/
theorem channel_last (S E : Fin 256) (H : Nat) (hH : 0 < H) (hc : closer S E H) :
    within1 (channel S E (H - 1) H) E := by
  obtain ⟨h1, h2⟩ := channelValue_last S E H hH hc
  have hf := channel_val_floor S E (H - 1) H (by omega)
  have hlo : (E.val : ℤ) - 1 ≤ ⌊channelValue S E (H - 1) H⌋ := by
    rw [Int.le_floor]; push_cast; linarith
  have hhi : ⌊channelValue S E (H - 1) H⌋ < (E.val : ℤ) + 1 := by
    rw [Int.floor_lt]; push_cast; linarith
  unfold within1
  omega

/-- The channel lies between the smaller value minus one and the larger value. -/
theorem channel_bounds (S E : Fin 256) (y H : Nat) (hy : y < H) :
    min S.val E.val ≤ (channel S E y H).val + 1 ∧ (channel S E y H).val ≤ max S.val E.val := by
  obtain ⟨h1, h2⟩ := channelValue_bounds S E y H hy
  have hf := channel_val_floor S E y H hy
  have hsmall : (1 : ℚ) / 2 ^ (43 : ℕ) < 1 := by norm_num
  have hlo : ((min S.val E.val : ℕ) : ℤ) - 1 ≤ ⌊channelValue S E y H⌋ := by
    rw [Int.le_floor]; push_cast; linarith
  have hhi : ⌊channelValue S E y H⌋ < ((max S.val E.val : ℕ) : ℤ) + 1 := by
    rw [Int.floor_lt]; push_cast; linarith
  omega


/-! ## Evaluations in `float64` -/

/-- The ratio of row 8 of 1200. -/
theorem ratio_8_1200 : ratio 8 1200 = 7686143364045647 * 2 ^ (-60 : ℤ) := by
  unfold ratio fdiv
  rw [fl_natCast 8 (by norm_num), fl_natCast 1200 (by norm_num)]
  have h := fl_eq_of_near (((8 : ℕ) : ℚ) / ((1200 : ℕ) : ℚ)) 7686143364045647 (-60)
    (by norm_num) (by norm_num) (by norm_num) (by norm_num)
  rw [h]
  norm_num

/-- The five roundings of the red channel of the last palette pair in row 8 of 1200. -/
theorem channelValue_255_8_1200 :
    channelValue 255 255 8 1200 = 8972014882652159 * 2 ^ (-45 : ℤ) := by
  have ha : fl (1 - 7686143364045647 * 2 ^ (-60 : ℤ)) = 8947151259709385 * 2 ^ (-53 : ℤ) := by
    have h := fl_eq_of_near (1 - 7686143364045647 * 2 ^ (-60 : ℤ)) 8947151259709385 (-53)
      (by norm_num) (by norm_num) (by norm_num) (by norm_num)
    rw [h]; norm_num
  have hp1 : fl (255 * (8947151259709385 * 2 ^ (-53 : ℤ)))
      = 8912201450101145 * 2 ^ (-45 : ℤ) := by
    have h := fl_eq_of_near (255 * (8947151259709385 * 2 ^ (-53 : ℤ))) 8912201450101145 (-45)
      (by norm_num) (by norm_num) (by norm_num) (by norm_num)
    rw [h]; norm_num
  have hp2 : fl (255 * (7686143364045647 * 2 ^ (-60 : ℤ)))
      = 7656119366529844 * 2 ^ (-52 : ℤ) := by
    have h := fl_eq_of_near (255 * (7686143364045647 * 2 ^ (-60 : ℤ))) 7656119366529844 (-52)
      (by norm_num) (by norm_num) (by norm_num) (by norm_num)
    rw [h]; norm_num
  have hv : fl (8912201450101145 * 2 ^ (-45 : ℤ) + 7656119366529844 * 2 ^ (-52 : ℤ))
      = 8972014882652159 * 2 ^ (-45 : ℤ) := by
    have h := fl_eq_of_near
      (8912201450101145 * 2 ^ (-45 : ℤ) + 7656119366529844 * 2 ^ (-52 : ℤ))
      8972014882652159 (-45) (by norm_num) (by norm_num) (by norm_num) (by norm_num)
    rw [h]; norm_num
  have h255n : (255 : Fin 256).val = 255 := rfl
  have h255 : (((255 : Fin 256).val : ℕ) : ℚ) = 255 := by rw [h255n]; norm_num
  unfold channelValue fadd fmul fsub
  rw [ratio_8_1200, h255, ha, hp1, hp2, hv]

/-- The red channel of the last palette pair in row 8 of 1200 is 254. -/
theorem channel_255_8_1200 : channel 255 255 8 1200 = 254 := by
  apply Fin.ext
  have h := channel_val_floor 255 255 8 1200 (by norm_num)
  rw [channelValue_255_8_1200] at h
  have hf : ⌊(8972014882652159 * 2 ^ (-45 : ℤ) : ℚ)⌋ = 254 := by
    rw [Int.floor_eq_iff]; norm_num
  rw [hf] at h
  have h254 : (254 : Fin 256).val = 254 := rfl
  rw [h254]
  exact_mod_cast h


/-- The `float64` constant 1.6. -/
theorem fl_8_5 : fl (8 / 5) = 7205759403792794 * 2 ^ (-52 : ℤ) := by
  have h := fl_eq_of_near (8 / 5) 7205759403792794 (-52) (by norm_num) (by norm_num)
    (by norm_num) (by norm_num)
  rw [h]; norm_num

/-- The conversion `int(x)` of a value between two consecutive naturals. -/
theorem truncate_of_between (q : ℚ) (n : ℕ) (h1 : (n : ℚ) ≤ q) (h2 : q < (n : ℚ) + 1) :
    truncate q = n := by
  have h0 : 0 ≤ q := le_trans (Nat.cast_nonneg n) h1
  unfold truncate
  rw [if_pos h0, Int.floor_eq_iff]
  exact ⟨by exact_mod_cast h1, by exact_mod_cast h2⟩

/-- `int(58.0 * 1.6)` is 92. -/
theorem truncate_58 : truncate (fmul 58 (fl 1.6)) = 92 := by
  have hc : (1.6 : ℚ) = 8 / 5 := by norm_num
  have hlo : fl (185 * 2 ^ (-1 : ℤ)) ≤ fmul 58 (fl 1.6) := by
    unfold fmul
    rw [hc, fl_8_5]
    exact fl_mono (by norm_num) (by norm_num)
  have hhi : fmul 58 (fl 1.6) ≤ fl (743 * 2 ^ (-3 : ℤ)) := by
    unfold fmul
    rw [hc, fl_8_5]
    exact fl_mono (by norm_num) (by norm_num)
  have e1 := fl_exact 185 (-1) (by norm_num)
  have e2 := fl_exact 743 (-3) (by norm_num)
  push_cast at e1 e2
  rw [e1] at hlo
  rw [e2] at hhi
  have := truncate_of_between (fmul 58 (fl 1.6)) 92 (by norm_num at hlo ⊢; linarith)
    (by norm_num at hhi ⊢; linarith)
  exact_mod_cast this

/-! ## The gradient: the row colours -/

/-- The palette pair is only looked up: the rows are drawn by `drawGradient`. -/
theorem drawRandomGradientBackground_eq (img : Image) (n : Fin colorPairs.length) :
    drawRandomGradientBackground img n
      = drawGradient img (colorPairs.get n).1 (colorPairs.get n).2 := rfl

/-- C8 as stated fails: on a buffer of height 1 the only row is row 0, which holds the
start colour; for the first palette pair its green channel is 128, 46 away from the end
colour's 174. -/
theorem gradient_height_one_last_row :
    (drawRandomGradientBackground (newRGBA 1 1) ⟨0, by decide⟩).pix 0 (1 - 1)
        = ⟨41, 128, 185, 255⟩ ∧
      (colorPairs.get ⟨0, by decide⟩).2 = ⟨39, 174, 96, 255⟩ ∧
      ¬ rgbWithin1 ((drawRandomGradientBackground (newRGBA 1 1) ⟨0, by decide⟩).pix 0 (1 - 1))
          (colorPairs.get ⟨0, by decide⟩).2 := by
  have hpix : (drawRandomGradientBackground (newRGBA 1 1) ⟨0, by decide⟩).pix 0 (1 - 1)
      = ⟨41, 128, 185, 255⟩ := by
    show (drawGradient (newRGBA 1 1) ⟨41, 128, 185, 255⟩ ⟨39, 174, 96, 255⟩).pix 0 0 = _
    rw [drawGradient_pix _ _ _ 0 0 (by decide) (by decide)]
    show (⟨channel 41 39 0 1, channel 128 174 0 1, channel 185 96 0 1, 255⟩ : RGBA) = _
    rw [channel_first, channel_first, channel_first]
  refine ⟨hpix, rfl, ?_⟩
  rw [hpix]
  decide

/-- C8, amended: for every height > 0 and every colour pair, row 0 of the gradient holds
the start colour in R, G and B (with alpha 255), and in the last row each of R, G, B is
within one of the end colour whenever the two values of that channel differ by less
than the height. -/
theorem drawGradient_first_last_row (img : Image) (startColor endColor : RGBA) (x : Nat)
    (hx : x < img.width) (hH : 0 < img.height) :
    (drawGradient img startColor endColor).pix x 0
        = ⟨startColor.R, startColor.G, startColor.B, 255⟩ ∧
      (closer startColor.R endColor.R img.height →
        within1 ((drawGradient img startColor endColor).pix x (img.height - 1)).R
          endColor.R) ∧
      (closer startColor.G endColor.G img.height →
        within1 ((drawGradient img startColor endColor).pix x (img.height - 1)).G
          endColor.G) ∧
      (closer startColor.B endColor.B img.height →
        within1 ((drawGradient img startColor endColor).pix x (img.height - 1)).B
          endColor.B) := by
  rw [drawGradient_pix img _ _ x 0 hx hH,
    drawGradient_pix img _ _ x (img.height - 1) hx (by omega)]
  refine ⟨?_, ?_, ?_, ?_⟩
  · simp only [lineColor, channel_first]
  · exact channel_last _ _ _ hH
  · exact channel_last _ _ _ hH
  · exact channel_last _ _ _ hH

/-- C8, amended, at the first palette pair on a buffer 1200 pixels high: row 0 is the
start colour and row 1199 is within one of the end colour. -/
theorem drawGradient_first_last_row_witness :
    (drawRandomGradientBackground (newRGBA 630 1200) ⟨0, by decide⟩).pix 5 0
        = ⟨41, 128, 185, 255⟩ ∧
      rgbWithin1 ((drawRandomGradientBackground (newRGBA 630 1200) ⟨0, by decide⟩).pix 5 1199)
        ⟨39, 174, 96, 255⟩ := by
  have h := drawGradient_first_last_row (newRGBA 630 1200) (colorPairs.get ⟨0, by decide⟩).1
    (colorPairs.get ⟨0, by decide⟩).2 5 (by decide) (by decide)
  have h1199 : (newRGBA 630 1200).height - 1 = 1199 := by norm_num [newRGBA]
  rw [h1199] at h
  rw [drawRandomGradientBackground_eq]
  exact ⟨h.1, h.2.1 (by decide), h.2.2.1 (by decide), h.2.2.2 (by decide)⟩

/-- The value of a channel half-way down a buffer of height 2. -/
theorem channelValue_half (S E : Fin 256) :
    channelValue S E 1 2 = ((S.val + E.val : ℕ) : ℚ) * 2 ^ (-1 : ℤ) := by
  have hS := S.isLt
  have hE := E.isLt
  have h1 : fl ((1 : ℕ) : ℚ) = ((1 : ℕ) : ℚ) := fl_natCast 1 (by norm_num)
  have h2 : fl ((2 : ℕ) : ℚ) = ((2 : ℕ) : ℚ) := fl_natCast 2 (by norm_num)
  have hhalf : fl (1 / 2) = 1 / 2 := by
    have := fl_exact 1 (-1) (by norm_num)
    norm_num at this
    exact this
  have hsub : fl (1 - 1 / 2) = 1 / 2 := by
    have : (1 : ℚ) - 1 / 2 = 1 / 2 := by norm_num
    rw [this, hhalf]
  have hmulS : fl ((S.val : ℚ) * (1 / 2)) = (S.val : ℚ) * (1 / 2) := by
    have := fl_exact S.val (-1) (by omega)
    norm_num at this ⊢
    exact this
  have hmulE : fl ((E.val : ℚ) * (1 / 2)) = (E.val : ℚ) * (1 / 2) := by
    have := fl_exact E.val (-1) (by omega)
    norm_num at this ⊢
    exact this
  have hadd : fl ((S.val : ℚ) * (1 / 2) + (E.val : ℚ) * (1 / 2))
      = ((S.val + E.val : ℕ) : ℚ) * 2 ^ (-1 : ℤ) := by
    have := fl_exact (S.val + E.val) (-1) (by omega)
    have heq : (S.val : ℚ) * (1 / 2) + (E.val : ℚ) * (1 / 2)
        = ((S.val + E.val : ℕ) : ℚ) * 2 ^ (-1 : ℤ) := by
      push_cast; norm_num; ring
    rw [heq, this]
  unfold channelValue ratio fadd fmul fsub fdiv
  rw [h1, h2]
  have hq : ((1 : ℕ) : ℚ) / ((2 : ℕ) : ℚ) = 1 / 2 := by norm_num
  rw [hq, hhalf, hsub, hmulS, hmulE, hadd]

/-- C9: after `drawRandomGradientBackground`, every pixel `(x, y)` of the buffer holds
the colour whose R, G, B are `start*(1 - y/height) + end*(y/height)`, computed in
`float64` and truncated to 8 bits, and whose alpha is 255, for the chosen pair; the
colour depends on `y` only, so all the pixels of a row hold the same colour. -/
theorem drawRandomGradientBackground_pixel (img : Image) (n : Fin colorPairs.length)
    (x y : Nat) (hx : x < img.width) (hy : y < img.height) :
    (drawRandomGradientBackground img n).pix x y
        = ⟨uint8 (fadd
              (fmul ((colorPairs.get n).1.R.val : ℚ)
                (fsub 1 (fdiv (fl (y : ℚ)) (fl (img.height : ℚ)))))
              (fmul ((colorPairs.get n).2.R.val : ℚ)
                (fdiv (fl (y : ℚ)) (fl (img.height : ℚ))))),
           uint8 (fadd
              (fmul ((colorPairs.get n).1.G.val : ℚ)
                (fsub 1 (fdiv (fl (y : ℚ)) (fl (img.height : ℚ)))))
              (fmul ((colorPairs.get n).2.G.val : ℚ)
                (fdiv (fl (y : ℚ)) (fl (img.height : ℚ))))),
           uint8 (fadd
              (fmul ((colorPairs.get n).1.B.val : ℚ)
                (fsub 1 (fdiv (fl (y : ℚ)) (fl (img.height : ℚ)))))
              (fmul ((colorPairs.get n).2.B.val : ℚ)
                (fdiv (fl (y : ℚ)) (fl (img.height : ℚ))))),
           255⟩ ∧
      ∀ x2, x2 < img.width →
        (drawRandomGradientBackground img n).pix x2 y
          = (drawRandomGradientBackground img n).pix x y := by
  unfold drawRandomGradientBackground
  simp only
  refine ⟨?_, fun x2 hx2 => ?_⟩
  · rw [drawGradient_pix img _ _ x y hx hy]
    rfl
  · rw [drawGradient_pix img _ _ x y hx hy, drawGradient_pix img _ _ x2 y hx2 hy]

/-- C9 at the first palette pair on a 2 x 2 buffer: both pixels of row 1 hold the colour
half-way between the two colours, truncated. -/
theorem drawRandomGradientBackground_pixel_witness :
    (drawRandomGradientBackground (newRGBA 2 2) ⟨0, by decide⟩).pix 1 1
        = ⟨40, 151, 140, 255⟩ ∧
      (drawRandomGradientBackground (newRGBA 2 2) ⟨0, by decide⟩).pix 0 1
        = ⟨40, 151, 140, 255⟩ := by
  have h := drawRandomGradientBackground_pixel (newRGBA 2 2) ⟨0, by decide⟩ 1 1
    (by decide) (by decide)
  have hch : ∀ (S E : Fin 256) (s e c : ℕ), S.val = s → E.val = e →
      (c : ℚ) ≤ ((s + e : ℕ) : ℚ) * 2 ^ (-1 : ℤ) →
      ((s + e : ℕ) : ℚ) * 2 ^ (-1 : ℤ) < (c : ℚ) + 1 →
      (channel S E 1 2).val = c := by
    intro S E s e c hs he h1 h2
    have hf := channel_val_floor S E 1 2 (by norm_num)
    rw [channelValue_half, hs, he] at hf
    have : ⌊((s + e : ℕ) : ℚ) * 2 ^ (-1 : ℤ)⌋ = (c : ℤ) := by
      rw [Int.floor_eq_iff]
      exact ⟨by exact_mod_cast h1, by exact_mod_cast h2⟩
    rw [this] at hf
    exact_mod_cast hf
  have hR : channel 41 39 1 2 = 40 :=
    Fin.ext (hch 41 39 41 39 40 rfl rfl (by norm_num) (by norm_num))
  have hG : channel 128 174 1 2 = 151 :=
    Fin.ext (hch 128 174 128 174 151 rfl rfl (by norm_num) (by norm_num))
  have hB : channel 185 96 1 2 = 140 :=
    Fin.ext (hch 185 96 185 96 140 rfl rfl (by norm_num) (by norm_num))
  have hval : (drawRandomGradientBackground (newRGBA 2 2) ⟨0, by decide⟩).pix 1 1
      = ⟨40, 151, 140, 255⟩ := by
    rw [h.1]
    show (⟨channel 41 39 1 2, channel 128 174 1 2, channel 185 96 1 2, 255⟩ : RGBA) = _
    rw [hR, hG, hB]
  exact ⟨hval, (h.2 0 (by decide)).trans hval⟩

/-! ## Face construction failure -/

/-- C11: whenever the font face cannot be constructed, `wrapText` returns exactly one
line, the original text, whatever its length and content. -/
theorem wrapText_of_no_face (text : List Char) (fontSize : ℚ) (maxWidth : Int) (fnt : Font)
    (hface : fnt.newFace fontSize = none) :
    wrapText text fontSize maxWidth fnt = [text] := by
  unfold wrapText
  rw [hface]

/-- C11 at a text of 24 code points and width 320, which a constructed face would wrap
into three lines. -/
theorem wrapText_of_no_face_witness :
    wrapText plainText24 34 320 brokenFont = [plainText24] :=
  wrapText_of_no_face plainText24 34 320 brokenFont rfl

/-! ## The two flushes of one iteration -/

/-- The punctuation test fails on a state whose line buffer is empty. -/
theorem punctCond_flush (maxWidth : Int) (st : WrapState) (ch : Char) (w : Int) :
    punctCond maxWidth st.flush ch w = false := by
  simp [punctCond, WrapState.flush, strLen]

/-- The number of completed lines after one iteration, by the two tests. -/
theorem wrapStep_lines_length (face : Face) (maxWidth : Int) (st : WrapState) (ch : Char) :
    (wrapStep face maxWidth st ch).lines.length = st.lines.length ∨
      (wrapStep face maxWidth st ch).lines.length = st.lines.length + 1 := by
  unfold wrapStep
  cases hg : face.glyphAdvance ch with
  | none => exact Or.inl rfl
  | some w =>
    simp only
    cases ho : overflowCond maxWidth st (w : Int) with
    | true =>
      simp only [if_true, punctCond_flush, Bool.false_eq_true, if_false]
      right
      simp [WrapState.flush]
    | false =>
      simp only [Bool.false_eq_true, if_false]
      cases hp : punctCond maxWidth st ch (w : Int) with
      | true => right; simp [WrapState.flush]
      | false => left; simp

/-- C12 as stated fails: no text, face and width bring the loop, after any characters
`before`, to an iteration that flushes twice, and the step-3 test never holds after the
step-2 flush. -/
theorem wrapStep_no_double_flush :
    ¬ ∃ (face : Face) (maxWidth : Int) (before : List Char) (ch : Char),
        (wrapLoop face maxWidth before).lines.length + 2
            ≤ (wrapStep face maxWidth (wrapLoop face maxWidth before) ch).lines.length ∨
          ∃ w : Nat, face.glyphAdvance ch = some w ∧
            overflowCond maxWidth (wrapLoop face maxWidth before) (w : Int) = true ∧
            punctCond maxWidth (wrapLoop face maxWidth before).flush ch (w : Int) = true := by
  rintro ⟨face, maxWidth, before, ch, h | ⟨w, _, _, hp⟩⟩
  · rcases wrapStep_lines_length face maxWidth (wrapLoop face maxWidth before) ch with h1 | h1
      <;> omega
  · rw [punctCond_flush] at hp
    exact Bool.false_ne_true hp

/-- C12, amended: an iteration of the loop performs at most one flush; when the
width-overflow flush of step 2 is performed, the punctuation test of step 3 is evaluated
on an empty line buffer and fails. -/
theorem wrapStep_at_most_one_flush (face : Face) (maxWidth : Int) (st : WrapState)
    (ch : Char) :
    (wrapStep face maxWidth st ch).lines.length ≤ st.lines.length + 1 ∧
      ∀ w : Nat, face.glyphAdvance ch = some w →
        overflowCond maxWidth st (w : Int) = true →
        punctCond maxWidth st.flush ch (w : Int) = false ∧
        (wrapStep face maxWidth st ch).lines = st.lines ++ [st.currentLine] ∧
        (wrapStep face maxWidth st ch).currentLine = [ch] := by
  refine ⟨?_, ?_⟩
  · rcases wrapStep_lines_length face maxWidth st ch with h | h <;> omega
  · intro w hg ho
    have hstep : wrapStep face maxWidth st ch
        = { lines := st.lines ++ [st.currentLine], currentLine := [ch],
            currentWidth := 0 + (w : Int) } := by
      unfold wrapStep
      simp only [hg, ho, if_true, punctCond_flush, Bool.false_eq_true, if_false]
      simp [WrapState.flush]
    exact ⟨punctCond_flush _ _ _ _, by rw [hstep], by rw [hstep]⟩

set_option maxRecDepth 100000 in
/-- C12, amended, at a full line followed by a comma at width 180: both tests hold on the
variables at the start of the iteration, and the iteration flushes once. -/
theorem wrapStep_at_most_one_flush_witness :
    overflowCond 180 fullLineState 58 = true ∧ punctCond 180 fullLineState '，' 58 = true ∧
      punctCond 180 fullLineState.flush '，' 58 = false ∧
      (wrapStep sampleFace 180 fullLineState '，').lines = ["封面生".data] ∧
      (wrapStep sampleFace 180 fullLineState '，').currentLine = ['，'] :=
  ⟨by decide, by decide,
    (wrapStep_at_most_one_flush sampleFace 180 fullLineState '，').2 58 (by decide)
      (by decide)⟩

/-! ## The punctuation rule -/

set_option maxRecDepth 100000 in
/-- C13 at the text `封面，完成` with width 180 and advances of 58: the greedy pass breaks
before the comma although the comma fits on the first line (174 of 180 pixels). -/
theorem wrapText_strands_comma :
    wrapText "封面，完成".data 58 180 sampleFont = ["封面".data, "，完成".data] ∧
      greedyLines sampleFace 180 "封面，完成".data = ["封面".data, "，完成".data] ∧
      isPunctuation '，' = true ∧
      textWidth sampleFace ("封面".data ++ ['，']) = 174 ∧
      ¬ (textWidth sampleFace ("封面".data ++ ['，']) > 180) := by
  decide

/-- C14: for `maxWidth >= 0` the threshold comparison with the truncating division
`maxWidth*9/10` holds exactly when `currentWidth + charWidth` exceeds 90% of `maxWidth`
exactly, that is `10*(currentWidth + charWidth) > 9*maxWidth`; and, the product
`maxWidth*9` not overflowing the 64-bit `int`, the punctuation test of the code holds
exactly when the line is non-empty, the character is a punctuation mark and that
inequality holds. -/
theorem punctCond_iff_exact (maxWidth : Int) (st : WrapState) (ch : Char) (charWidth : Int)
    (hmax : 0 ≤ maxWidth) :
    (st.currentWidth + charWidth > Int.tdiv (maxWidth * 9) 10
        ↔ 10 * (st.currentWidth + charWidth) > 9 * maxWidth) ∧
      (st.currentWidth + charWidth > Int.tdiv (maxWidth * 9) 10
        ↔ ((st.currentWidth + charWidth : Int) : ℚ) > (9 / 10 : ℚ) * (maxWidth : ℚ)) ∧
      (maxWidth * 9 < 2 ^ 63 →
        (punctCond maxWidth st ch charWidth = true
          ↔ st.currentLine ≠ [] ∧ isPunctuation ch = true ∧
            10 * (st.currentWidth + charWidth) > 9 * maxWidth)) := by
  have hdiv : Int.tdiv (maxWidth * 9) 10 = maxWidth * 9 / 10 :=
    Int.tdiv_eq_ediv (by omega) (by decide)
  have h1 : st.currentWidth + charWidth > Int.tdiv (maxWidth * 9) 10
      ↔ 10 * (st.currentWidth + charWidth) > 9 * maxWidth := by
    rw [hdiv]; omega
  refine ⟨h1, ?_, ?_⟩
  · rw [h1]
    constructor
    · intro h
      have h' : ((9 * maxWidth : Int) : ℚ) < ((10 * (st.currentWidth + charWidth) : Int) : ℚ) := by
        exact_mod_cast h
      push_cast at h' ⊢
      linarith
    · intro h
      have h' : ((9 * maxWidth : Int) : ℚ) < ((10 * (st.currentWidth + charWidth) : Int) : ℚ) := by
        push_cast at h ⊢
        linarith
      exact_mod_cast h'
  · intro hno
    have hw : wrap64 (maxWidth * 9) = maxWidth * 9 :=
      wrap64_of_range _ (by omega) hno
    simp only [punctCond, Bool.and_eq_true, decide_eq_true_eq]
    have hpos : strLen st.currentLine > 0 ↔ st.currentLine ≠ [] := strLen_pos_iff _
    rw [hw, h1, hpos]
    tauto

/-- C14 at width 181, where the truncated threshold is 162 and the exact one 162.9: a
line of 105 pixels and a comma of 58 cross both. -/
theorem punctCond_iff_exact_witness :
    Int.tdiv (181 * 9) 10 = 162 ∧
      (punctCond 181 { lines := [], currentLine := ['a'], currentWidth := 105 } '，' 58 = true
        ↔ (['a'] : List Char) ≠ [] ∧ isPunctuation '，' = true ∧
          10 * ((105 : Int) + 58) > 9 * 181) :=
  ⟨by decide, (punctCond_iff_exact 181 { lines := [], currentLine := ['a'], currentWidth := 105 }
    '，' 58 (by decide)).2.2 (by norm_num)⟩

/-! ## The forced split keeps the whole text -/

theorem forcedSplit_flatten (text : List Char) : (forcedSplit text).flatten = text := by
  unfold forcedSplit
  simp only
  split <;> simp

/-- C16: whenever `wrapText` takes the forced-split branch, its two lines concatenated in
order are the original text in full, the characters without glyph advance included. -/
theorem wrapText_forced_flatten (text : List Char) (fontSize : ℚ) (maxWidth : Int)
    (fnt : Font) (face : Face) (hface : fnt.newFace fontSize = some face)
    (hforced : forcedSplitCond (greedyLines face maxWidth text) text = true) :
    (wrapText text fontSize maxWidth fnt).length = 2 ∧
      (wrapText text fontSize maxWidth fnt).flatten = text := by
  rw [wrapText_of_forced hface hforced]
  exact ⟨forcedSplit_length text, forcedSplit_flatten text⟩

set_option maxRecDepth 100000 in
/-- C16 at a text of 17 code points with a character that has no glyph: the greedy pass
drops it from its single line, the forced split returns it. -/
theorem wrapText_forced_flatten_witness :
    greedyLines sampleFace 5000 emojiText17 = ["aaaaaaaaaaaaaaaa".data] ∧
      wrapText emojiText17 34 5000 sampleFont = ["aaaaaaaa".data, "😀aaaaaaaa".data] ∧
      (wrapText emojiText17 34 5000 sampleFont).flatten = emojiText17 :=
  ⟨by decide, by decide,
    (wrapText_forced_flatten emojiText17 34 5000 sampleFont sampleFace rfl (by decide)).2⟩

/-! ## The two outcomes of an iteration -/

/-- An iteration on a character with a glyph either flushes once and starts a new line
with the character, for one of the two reasons, or appends the character to a line that is
empty or has room for it. -/
theorem wrapStep_cases (face : Face) (maxWidth : Int) (st : WrapState) (ch : Char) (w : Nat)
    (hg : face.glyphAdvance ch = some w) :
    (st.currentLine ≠ [] ∧
      (st.currentWidth + (w : Int) > maxWidth ∨
        (isPunctuation ch = true ∧
          st.currentWidth + (w : Int) > Int.tdiv (wrap64 (maxWidth * 9)) 10)) ∧
      wrapStep face maxWidth st ch
        = { lines := st.lines ++ [st.currentLine], currentLine := [ch],
            currentWidth := 0 + (w : Int) }) ∨
    ((st.currentWidth + (w : Int) ≤ maxWidth ∨ st.currentLine = []) ∧
      wrapStep face maxWidth st ch
        = { lines := st.lines, currentLine := st.currentLine ++ [ch],
            currentWidth := st.currentWidth + (w : Int) }) := by
  cases ho : overflowCond maxWidth st (w : Int) with
  | true =>
    left
    obtain ⟨h1, h2⟩ := overflowCond_true ho
    refine ⟨h2, Or.inl h1, ?_⟩
    unfold wrapStep
    simp only [hg, ho, if_true, punctCond_flush, Bool.false_eq_true, if_false]
    simp [WrapState.flush]
  | false =>
    cases hp : punctCond maxWidth st ch (w : Int) with
    | true =>
      left
      obtain ⟨h1, h2, h3⟩ := punctCond_true hp
      refine ⟨h1, Or.inr ⟨h2, h3⟩, ?_⟩
      unfold wrapStep
      simp only [hg, ho, Bool.false_eq_true, if_false, hp, if_true]
      simp [WrapState.flush]
    | false =>
      right
      refine ⟨overflowCond_false ho, ?_⟩
      unfold wrapStep
      simp only [hg, ho, Bool.false_eq_true, if_false, hp]

/-! ## An over-wide character stands alone -/

theorem WideInv.wide_step {face : Face} {maxWidth : Int} {st : WrapState} (ch : Char)
    (h : WideInv face maxWidth st) : WideInv face maxWidth (wrapStep face maxWidth st ch) := by
  cases hg : face.glyphAdvance ch with
  | none =>
    have : wrapStep face maxWidth st ch = st := by simp [wrapStep, hg]
    rw [this]; exact h
  | some w =>
    have hone : textWidth face [ch] = (w : Int) := textWidth_singleton_some face ch w hg
    rcases wrapStep_cases face maxWidth st ch w hg with ⟨hne, _, heq⟩ | ⟨hroom, heq⟩
    · rw [heq]
      refine ⟨?_, ?_, ?_⟩
      · intro line hl
        simp only [List.mem_append, List.mem_singleton] at hl
        rcases hl with hl | hl
        · exact h.done line hl
        · subst hl
          refine ⟨hne, fun hwide => ?_⟩
          have h1 := h.cur (by rw [h.width]; exact hwide)
          have h2 : 0 < st.currentLine.length := List.length_pos.2 hne
          omega
      · simp only [hone]; omega
      · intro _; simp
    · rw [heq]
      refine ⟨h.done, ?_, ?_⟩
      · simp only
        rw [textWidth_append, hone, h.width]
      · intro hwide
        simp only at hwide ⊢
        rcases hroom with hroom | hempty
        · omega
        · simp [hempty]

theorem WideInv.wide_foldl {face : Face} {maxWidth : Int} (text : List Char) (st : WrapState)
    (h : WideInv face maxWidth st) :
    WideInv face maxWidth (text.foldl (wrapStep face maxWidth) st) := by
  induction text generalizing st with
  | nil => exact h
  | cons ch rest ih => exact ih _ (h.wide_step ch)

/-- C17: whatever `maxWidth` is, a line produced by the greedy pass of `wrapText` whose
measured width exceeds `maxWidth` consists of exactly one character. -/
theorem greedyLines_wide_line_single (face : Face) (maxWidth : Int) (text : List Char) :
    ∀ line ∈ greedyLines face maxWidth text,
      maxWidth < textWidth face line → line.length = 1 := by
  have hinv : WideInv face maxWidth (wrapLoop face maxWidth text) :=
    WideInv.wide_foldl text _ ⟨by simp, by simp [textWidth_nil], by simp⟩
  intro line hl hwide
  unfold greedyLines at hl
  simp only at hl
  split_ifs at hl with hpos
  · simp only [List.mem_append, List.mem_singleton] at hl
    rcases hl with hl | hl
    · exact (hinv.done line hl).2 hwide
    · subst hl
      have h1 := hinv.cur (by rw [hinv.width]; exact hwide)
      have h2 : 0 < (wrapLoop face maxWidth text).currentLine.length :=
        List.length_pos.2 ((strLen_pos_iff _).1 hpos)
      omega
  · exact (hinv.done line hl).2 hwide

set_option maxRecDepth 100000 in
/-- C17 at the text `a封b` with width 50, narrower than the 58 pixels of `封`: the wide
character is a line of its own. -/
theorem greedyLines_wide_line_single_witness :
    greedyLines sampleFace 50 "a封b".data = [['a'], ['封'], ['b']] ∧
      (50 : Int) < textWidth sampleFace ['封'] ∧ (['封'] : List Char).length = 1 :=
  ⟨by decide, by decide,
    greedyLines_wide_line_single sampleFace 50 "a封b".data ['封'] (by decide) (by decide)⟩

/-! ## Every break has a reason -/

theorem BreakInv.break_step {face : Face} {maxWidth : Int} {st : WrapState} (ch : Char)
    (h : BreakInv face maxWidth st) :
    BreakInv face maxWidth (wrapStep face maxWidth st ch) := by
  cases hg : face.glyphAdvance ch with
  | none =>
    have : wrapStep face maxWidth st ch = st := by simp [wrapStep, hg]
    rw [this]; exact h
  | some w =>
    have hone : textWidth face [ch] = (w : Int) := textWidth_singleton_some face ch w hg
    rcases wrapStep_cases face maxWidth st ch w hg with ⟨hne, hwhy, heq⟩ | ⟨_, heq⟩
    · rw [heq]
      refine ⟨?_, ?_, ?_, ?_⟩
      · simp only
        rw [List.chain'_append]
        refine ⟨h.chain, List.chain'_singleton _, ?_⟩
        intro x hx y hy
        have hlast : (st.lines ++ [st.currentLine]).getLast? = some st.currentLine := by
          rw [List.getLast?_append, List.getLast?_singleton]; rfl
        rw [hlast] at hx
        simp only [Option.mem_def, Option.some.injEq] at hx
        simp only [List.head?_cons, Option.mem_def, Option.some.injEq] at hy
        subst hx hy
        refine ⟨ch, [], rfl, ?_⟩
        rw [hone, ← h.width]
        exact hwhy
      · intro line hl
        simp only [List.mem_append, List.mem_singleton] at hl
        rcases hl with hl | hl
        · exact h.nonempty line hl
        · rw [hl]; exact hne
      · intro hc; simp at hc
      · simp only [hone]; omega
    · rw [heq]
      have hch := List.chain'_append.1 h.chain
      refine ⟨?_, h.nonempty, ?_, ?_⟩
      · simp only
        rw [List.chain'_append]
        refine ⟨hch.1, List.chain'_singleton _, ?_⟩
        intro x hx y hy
        simp only [List.head?_cons, Option.mem_def, Option.some.injEq] at hy
        subst hy
        obtain ⟨c, rest, hc, hwhy⟩ := hch.2.2 x hx st.currentLine (by simp)
        exact ⟨c, rest ++ [ch], by rw [hc]; rfl, hwhy⟩
      · intro hc; simp at hc
      · simp only
        rw [textWidth_append, hone, h.width]

theorem BreakInv.break_foldl {face : Face} {maxWidth : Int} (text : List Char) (st : WrapState)
    (h : BreakInv face maxWidth st) :
    BreakInv face maxWidth (text.foldl (wrapStep face maxWidth) st) := by
  induction text generalizing st with
  | nil => exact h
  | cons ch rest ih => exact ih _ (h.break_step ch)

/-- A chain relates the elements at two consecutive indices. -/
theorem chain_getElem {α : Type} {R : α → α → Prop} (l : List α) (hl : List.Chain' R l)
    (i : Nat) (a b : α) (ha : l[i]? = some a) (hb : l[i + 1]? = some b) : R a b := by
  induction l generalizing i with
  | nil => simp at ha
  | cons x t ih =>
    rw [List.chain'_cons'] at hl
    cases i with
    | zero =>
      simp only [List.getElem?_cons_zero, Option.some.injEq] at ha
      simp only [zero_add, List.getElem?_cons_succ] at hb
      subst ha
      refine hl.1 b ?_
      cases t with
      | nil => simp at hb
      | cons y t2 => simpa using hb
    | succ i =>
      simp only [List.getElem?_cons_succ] at ha hb
      exact ih hl.2 i ha hb

theorem greedyLines_chain (face : Face) (maxWidth : Int) (text : List Char) :
    List.Chain' (BreakOk face maxWidth) (greedyLines face maxWidth text) ∧
      ∀ line ∈ greedyLines face maxWidth text, line ≠ [] := by
  have hinv : BreakInv face maxWidth (wrapLoop face maxWidth text) :=
    BreakInv.break_foldl text _ ⟨by simp, by simp, by simp, by simp [textWidth_nil]⟩
  unfold greedyLines
  simp only
  split_ifs with hpos
  · refine ⟨hinv.chain, ?_⟩
    intro line hl
    simp only [List.mem_append, List.mem_singleton] at hl
    rcases hl with hl | hl
    · exact hinv.nonempty line hl
    · rw [hl]; exact (strLen_pos_iff _).1 hpos
  · exact ⟨(List.chain'_append.1 hinv.chain).1, hinv.nonempty⟩

/-- The characters of the greedy lines are characters of the text. -/
theorem mem_text_of_mem_greedyLines (face : Face) (maxWidth : Int) (text : List Char)
    (line : List Char) (c : Char) (hl : line ∈ greedyLines face maxWidth text)
    (hc : c ∈ line) : c ∈ text := by
  have hflat : c ∈ (greedyLines face maxWidth text).flatten :=
    List.mem_flatten.2 ⟨line, hl, hc⟩
  rw [greedyLines_flatten] at hflat
  exact (List.mem_filter.1 hflat).1

/-- Every line of the greedy pass is non-empty, and two consecutive lines `L`, `L2` are
separated for one of the two reasons of the code, with the threshold as it computes it. -/
theorem greedyLines_breaks_wrapped (face : Face) (maxWidth : Int) (text : List Char) :
    (∀ line ∈ greedyLines face maxWidth text, line ≠ []) ∧
    (∀ (i : Nat) (L L2 : List Char), (greedyLines face maxWidth text)[i]? = some L →
      (greedyLines face maxWidth text)[i + 1]? = some L2 →
      ∃ c rest, L2 = c :: rest ∧
        (textWidth face L + textWidth face [c] > maxWidth ∨
          (isPunctuation c = true ∧
            textWidth face L + textWidth face [c]
              > Int.tdiv (wrap64 (maxWidth * 9)) 10))) := by
  obtain ⟨hchain, hne⟩ := greedyLines_chain face maxWidth text
  exact ⟨hne, fun i L L2 hL hL2 => chain_getElem _ hchain i L L2 hL hL2⟩

set_option maxRecDepth 100000 in
/-- C18 as stated fails: at the width 1024819115206086201 the product `maxWidth*9` is
`2^63 + 1` and wraps to a negative 64-bit `int`, so the punctuation test holds for the
comma of `a，b` and the greedy pass breaks before it, although the 90 pixels of `a，` exceed
neither `maxWidth` nor the exact `maxWidth*9/10`. -/
theorem greedyLines_break_at_huge_width :
    hugeWidth * 9 = 2 ^ 63 + 1 ∧
      Int.tdiv (wrap64 (hugeWidth * 9)) 10 = -922337203685477580 ∧
      greedyLines sampleFace hugeWidth "a，b".data = [['a'], "，b".data] ∧
      wrapText "a，b".data 58 hugeWidth sampleFont = [['a'], "，b".data] ∧
      textWidth sampleFace ['a'] + textWidth sampleFace ['，'] = 90 ∧
      ¬ (textWidth sampleFace ['a'] + textWidth sampleFace ['，'] > hugeWidth) ∧
      ¬ (textWidth sampleFace ['a'] + textWidth sampleFace ['，']
          > Int.tdiv (hugeWidth * 9) 10) := by
  decide

/-- C18, amended: when `maxWidth*9` does not overflow the 64-bit `int`, every line of the
greedy pass is non-empty; for two consecutive lines `L`, `L2` the first character `c` of
`L2` either overflows `L` (`width L + width c > maxWidth`) or is a punctuation mark with
`width L + width c > maxWidth*9/10`; and in a text without punctuation every line but the
last is maximal. -/
theorem greedyLines_breaks_needed (face : Face) (maxWidth : Int) (text : List Char)
    (hlo : -2 ^ 63 ≤ maxWidth * 9) (hhi : maxWidth * 9 < 2 ^ 63) :
    (∀ line ∈ greedyLines face maxWidth text, line ≠ []) ∧
    (∀ (i : Nat) (L L2 : List Char), (greedyLines face maxWidth text)[i]? = some L →
      (greedyLines face maxWidth text)[i + 1]? = some L2 →
      ∃ c rest, L2 = c :: rest ∧
        (textWidth face L + textWidth face [c] > maxWidth ∨
          (isPunctuation c = true ∧
            textWidth face L + textWidth face [c] > Int.tdiv (maxWidth * 9) 10))) ∧
    ((∀ ch ∈ text, isPunctuation ch = false) →
      ∀ (i : Nat) (L L2 : List Char), (greedyLines face maxWidth text)[i]? = some L →
        (greedyLines face maxWidth text)[i + 1]? = some L2 →
        ∃ c rest, L2 = c :: rest ∧ textWidth face L + textWidth face [c] > maxWidth) := by
  obtain ⟨hne, hwhy⟩ := greedyLines_breaks_wrapped face maxWidth text
  have hw : wrap64 (maxWidth * 9) = maxWidth * 9 := wrap64_of_range _ hlo hhi
  rw [hw] at hwhy
  refine ⟨hne, hwhy, ?_⟩
  intro hplain i L L2 hL hL2
  obtain ⟨c, rest, hc, hreason⟩ := hwhy i L L2 hL hL2
  refine ⟨c, rest, hc, ?_⟩
  rcases hreason with hwide | ⟨hp, _⟩
  · exact hwide
  · have hmem : c ∈ text :=
      mem_text_of_mem_greedyLines face maxWidth text L2 c
        (List.mem_iff_getElem?.2 ⟨i + 1, hL2⟩) (by rw [hc]; exact List.mem_cons_self _ _)
    rw [hplain c hmem] at hp
    exact absurd hp (by decide)

set_option maxRecDepth 100000 in
/-- C18, amended, at the subtitle of `main` with width 510: the second line starts with
`现`, which would have taken the first line to 522 pixels. -/
theorem greedyLines_breaks_needed_witness :
    greedyLines sampleFace 510 mainSubtitle = ["构建高效、可靠的".data, "现代后端服务".data] ∧
      ∃ c rest, "现代后端服务".data = c :: rest ∧
        (textWidth sampleFace "构建高效、可靠的".data + textWidth sampleFace [c] > 510 ∨
          (isPunctuation c = true ∧
            textWidth sampleFace "构建高效、可靠的".data + textWidth sampleFace [c]
              > Int.tdiv (510 * 9) 10)) :=
  ⟨by decide,
    (greedyLines_breaks_needed sampleFace 510 mainSubtitle (by norm_num) (by norm_num)).2.1 0
      "构建高效、可靠的".data "现代后端服务".data (by decide) (by decide)⟩

/-! ## Centred lines stay inside the margins -/

/-- C19: on an image at least 120 pixels wide, a line returned by `wrapText` at
`maxWidth = width - 120` whose measured width `W` is at most `maxWidth` is drawn centred
from `x = width/2 - W/2`, with `x >= 60` and `x + W <= width - 60`. -/
theorem drawChineseText_within_margins (width : Nat) (text line : List Char) (fontSize : ℚ)
    (fnt : Font) (face : Face) (y : Int) (col : RGBA) (hw : 120 ≤ width)
    (hface : fnt.newFace fontSize = some face)
    (_hline : line ∈ wrapText text fontSize ((width : Int) - 120) fnt)
    (hfit : textWidth face line ≤ (width : Int) - 120) :
    ∃ d, drawChineseText fnt fontSize line (Int.tdiv (width : Int) 2) y col true = some d ∧
      d.x = Int.tdiv (width : Int) 2 - Int.tdiv (textWidth face line) 2 ∧
      60 ≤ d.x ∧ d.x + textWidth face line ≤ (width : Int) - 60 := by
  have hW := textWidth_nonneg face line
  have h1 : Int.tdiv (width : Int) 2 = (width : Int) / 2 :=
    Int.tdiv_eq_ediv (by omega) (by decide)
  have h2 : Int.tdiv (textWidth face line) 2 = textWidth face line / 2 :=
    Int.tdiv_eq_ediv hW (by decide)
  refine ⟨{ size := fontSize, text := line,
            x := Int.tdiv (width : Int) 2 - Int.tdiv (textWidth face line) 2,
            y := y, col := col }, ?_, rfl, ?_, ?_⟩
  · simp [drawChineseText, hface]
  · simp only [h1, h2]; omega
  · simp only [h1, h2]; omega

set_option maxRecDepth 100000 in
/-- C19 at the first line of the subtitle of `main` on an image 630 pixels wide: the line
is 464 pixels wide and is drawn from x = 83 to x = 547. -/
theorem drawChineseText_within_margins_witness :
    textWidth sampleFace "构建高效、可靠的".data = 464 ∧
      ∃ d, drawChineseText sampleFont 34 "构建高效、可靠的".data (Int.tdiv ((630 : Nat) : Int) 2)
          447 ⟨245, 245, 245, 230⟩ true = some d ∧
        d.x = Int.tdiv ((630 : Nat) : Int) 2
            - Int.tdiv (textWidth sampleFace "构建高效、可靠的".data) 2 ∧
        60 ≤ d.x ∧
        d.x + textWidth sampleFace "构建高效、可靠的".data ≤ ((630 : Nat) : Int) - 60 :=
  ⟨by decide,
    drawChineseText_within_margins 630 mainSubtitle "构建高效、可靠的".data 34 sampleFont
      sampleFace 447 ⟨245, 245, 245, 230⟩ (by decide) rfl (by decide) (by decide)⟩

/-! ## Baselines of the title and subtitle lines -/

/-- `int(50.0 * 1.6)` is 80. -/
theorem truncate_50 : truncate (fmul 50 (fl 1.6)) = 80 := by
  have hc : (1.6 : ℚ) = 8 / 5 := by norm_num
  have hlo : fl (80 * 2 ^ (0 : ℤ)) ≤ fmul 50 (fl 1.6) := by
    unfold fmul
    rw [hc, fl_8_5]
    exact fl_mono (by norm_num) (by norm_num)
  have hhi : fmul 50 (fl 1.6) ≤ fl (161 * 2 ^ (-1 : ℤ)) := by
    unfold fmul
    rw [hc, fl_8_5]
    exact fl_mono (by norm_num) (by norm_num)
  have e1 := fl_exact 80 0 (by norm_num)
  have e2 := fl_exact 161 (-1) (by norm_num)
  push_cast at e1 e2
  rw [e1] at hlo
  rw [e2] at hhi
  have := truncate_of_between (fmul 50 (fl 1.6)) 80 (by norm_num at hlo ⊢; linarith)
    (by norm_num at hhi ⊢; linarith)
  exact_mod_cast this

/-- `int(34.0 * 1.4)` is 47. -/
theorem truncate_34 : truncate (fl (34 * 1.4)) = 47 := by
  have hlo : fl (95 * 2 ^ (-1 : ℤ)) ≤ fl (34 * 1.4) := fl_mono (by norm_num) (by norm_num)
  have hhi : fl (34 * 1.4) ≤ fl (191 * 2 ^ (-2 : ℤ)) := fl_mono (by norm_num) (by norm_num)
  have e1 := fl_exact 95 (-1) (by norm_num)
  have e2 := fl_exact 191 (-2) (by norm_num)
  push_cast at e1 e2
  rw [e1] at hlo
  rw [e2] at hhi
  have := truncate_of_between (fl (34 * 1.4)) 47 (by norm_num at hlo ⊢; linarith)
    (by norm_num at hhi ⊢; linarith)
  exact_mod_cast this

/-- The title size is one of the two sizes, and the line pitch `int(titleFontSize*1.6)`
is 92 at size 58 and 80 at size 50. -/
theorem title_pitch (title : List Char) :
    (titleFontSize title = 58 ∧ truncate (fmul (titleFontSize title) (fl 1.6)) = 92) ∨
      (titleFontSize title = 50 ∧ truncate (fmul (titleFontSize title) (fl 1.6)) = 80) := by
  unfold titleFontSize
  split_ifs
  · exact Or.inr ⟨rfl, truncate_50⟩
  · exact Or.inl ⟨rfl, truncate_58⟩

/-- The draw call of title line `i`. -/
theorem addTextWithFontAndWrap_title (img : Image) (config : CoverConfig) (fnt : Font)
    (i : Nat) :
    (addTextWithFontAndWrap img config fnt).title[i]?
      = (wrapText config.Title (titleFontSize config.Title) ((img.width : Int) - 120)
            fnt)[i]?.map
          (fun line => drawChineseText fnt (titleFontSize config.Title) line
            (Int.tdiv (img.width : Int) 2)
            (Int.tdiv (img.height : Int) 3
              + (i : Int) * truncate (fmul (titleFontSize config.Title) (fl 1.6)))
            ⟨255, 255, 255, 255⟩ true) := by
  simp only [addTextWithFontAndWrap, List.getElem?_map, List.getElem?_enum, Option.map_map]
  rfl

/-- The draw call of subtitle line `j`. -/
theorem addTextWithFontAndWrap_subtitle (img : Image) (config : CoverConfig) (fnt : Font)
    (j : Nat) :
    (addTextWithFontAndWrap img config fnt).subtitle[j]?
      = (wrapText config.Subtitle 34 ((img.width : Int) - 120) fnt)[j]?.map
          (fun line => drawChineseText fnt 34 line (Int.tdiv (img.width : Int) 2)
            (Int.tdiv (img.height : Int) 3
              + ((wrapText config.Title (titleFontSize config.Title)
                    ((img.width : Int) - 120) fnt).length : Int)
                * truncate (fmul (titleFontSize config.Title) (fl 1.6))
              + 40 + (j : Int) * truncate (fl (34 * 1.4)))
            ⟨245, 245, 245, 230⟩ true) := by
  simp only [addTextWithFontAndWrap, List.getElem?_map, List.getElem?_enum, Option.map_map]
  rfl

theorem drawChineseText_y (fnt : Font) (size : ℚ) (text : List Char) (x y : Int) (col : RGBA)
    (center : Bool) (face : Face) (hface : fnt.newFace size = some face) :
    ∃ d, drawChineseText fnt size text x y col center = some d ∧ d.text = text ∧ d.y = y := by
  unfold drawChineseText
  rw [hface]
  exact ⟨_, rfl, rfl, rfl⟩

/-- C15: with `p` the integer part of `1.6 * s` for the title size `s` (92 at 58, 80 at 50)
and `n` the number of title lines, title line `i` is drawn at baseline `height/3 + i*p`
and subtitle line `j` at `height/3 + n*p + 40 + j*47`; so every subtitle baseline is at
least 40 below every title baseline. -/
theorem addTextWithFontAndWrap_baselines (img : Image) (config : CoverConfig) (fnt : Font)
    (faceT faceS : Face) (hT : fnt.newFace (titleFontSize config.Title) = some faceT)
    (hS : fnt.newFace 34 = some faceS) :
    ∃ p : Int,
      p = truncate (fmul (titleFontSize config.Title) (fl 1.6)) ∧
      ((titleFontSize config.Title = 58 ∧ p = 92) ∨
        (titleFontSize config.Title = 50 ∧ p = 80)) ∧
      (∀ (i : Nat) (line : List Char),
        (wrapText config.Title (titleFontSize config.Title) ((img.width : Int) - 120)
          fnt)[i]? = some line →
        ∃ d, (addTextWithFontAndWrap img config fnt).title[i]? = some (some d) ∧
          d.text = line ∧ d.y = Int.tdiv (img.height : Int) 3 + (i : Int) * p) ∧
      (∀ (j : Nat) (line : List Char),
        (wrapText config.Subtitle 34 ((img.width : Int) - 120) fnt)[j]? = some line →
        ∃ d, (addTextWithFontAndWrap img config fnt).subtitle[j]? = some (some d) ∧
          d.text = line ∧
          d.y = Int.tdiv (img.height : Int) 3
            + ((wrapText config.Title (titleFontSize config.Title)
                  ((img.width : Int) - 120) fnt).length : Int) * p
            + 40 + (j : Int) * 47) ∧
      (∀ (i j : Nat) (dT dS : DrawnText),
        (addTextWithFontAndWrap img config fnt).title[i]? = some (some dT) →
        (addTextWithFontAndWrap img config fnt).subtitle[j]? = some (some dS) →
        dT.y + 40 ≤ dS.y) := by
  have hp := title_pitch config.Title
  have htitle : ∀ (i : Nat) (line : List Char),
      (wrapText config.Title (titleFontSize config.Title) ((img.width : Int) - 120)
        fnt)[i]? = some line →
      ∃ d, (addTextWithFontAndWrap img config fnt).title[i]? = some (some d) ∧
        d.text = line ∧
        d.y = Int.tdiv (img.height : Int) 3
          + (i : Int) * truncate (fmul (titleFontSize config.Title) (fl 1.6)) := by
    intro i line hline
    rw [addTextWithFontAndWrap_title, hline]
    obtain ⟨d, hd, ht, hy⟩ := drawChineseText_y fnt (titleFontSize config.Title) line
      (Int.tdiv (img.width : Int) 2)
      (Int.tdiv (img.height : Int) 3
        + (i : Int) * truncate (fmul (titleFontSize config.Title) (fl 1.6)))
      ⟨255, 255, 255, 255⟩ true faceT hT
    exact ⟨d, by rw [Option.map_some', hd], ht, hy⟩
  have hsub : ∀ (j : Nat) (line : List Char),
      (wrapText config.Subtitle 34 ((img.width : Int) - 120) fnt)[j]? = some line →
      ∃ d, (addTextWithFontAndWrap img config fnt).subtitle[j]? = some (some d) ∧
        d.text = line ∧
        d.y = Int.tdiv (img.height : Int) 3
          + ((wrapText config.Title (titleFontSize config.Title)
                ((img.width : Int) - 120) fnt).length : Int)
            * truncate (fmul (titleFontSize config.Title) (fl 1.6))
          + 40 + (j : Int) * 47 := by
    intro j line hline
    rw [addTextWithFontAndWrap_subtitle, hline, truncate_34]
    obtain ⟨d, hd, ht, hy⟩ := drawChineseText_y fnt 34 line (Int.tdiv (img.width : Int) 2)
      (Int.tdiv (img.height : Int) 3
        + ((wrapText config.Title (titleFontSize config.Title)
              ((img.width : Int) - 120) fnt).length : Int)
          * truncate (fmul (titleFontSize config.Title) (fl 1.6))
        + 40 + (j : Int) * 47)
      ⟨245, 245, 245, 230⟩ true faceS hS
    exact ⟨d, by rw [Option.map_some', hd], ht, hy⟩
  refine ⟨truncate (fmul (titleFontSize config.Title) (fl 1.6)), rfl, ?_, htitle, hsub, ?_⟩
  · rcases hp with ⟨h1, h2⟩ | ⟨h1, h2⟩
    · exact Or.inl ⟨h1, h2⟩
    · exact Or.inr ⟨h1, h2⟩
  · intro i j dT dS hdT hdS
    -- the title line and the subtitle line behind the two draw calls
    have hiT : ∃ line, (wrapText config.Title (titleFontSize config.Title)
        ((img.width : Int) - 120) fnt)[i]? = some line := by
      rw [addTextWithFontAndWrap_title] at hdT
      cases hl : (wrapText config.Title (titleFontSize config.Title)
          ((img.width : Int) - 120) fnt)[i]? with
      | none => rw [hl] at hdT; simp at hdT
      | some line => exact ⟨line, rfl⟩
    have hjS : ∃ line, (wrapText config.Subtitle 34 ((img.width : Int) - 120) fnt)[j]?
        = some line := by
      rw [addTextWithFontAndWrap_subtitle] at hdS
      cases hl : (wrapText config.Subtitle 34 ((img.width : Int) - 120) fnt)[j]? with
      | none => rw [hl] at hdS; simp at hdS
      | some line => exact ⟨line, rfl⟩
    obtain ⟨lineT, hlT⟩ := hiT
    obtain ⟨lineS, hlS⟩ := hjS
    obtain ⟨d1, hd1, _, hy1⟩ := htitle i lineT hlT
    obtain ⟨d2, hd2, _, hy2⟩ := hsub j lineS hlS
    rw [hd1] at hdT
    rw [hd2] at hdS
    simp only [Option.some.injEq] at hdT hdS
    subst hdT hdS
    have hi : i < (wrapText config.Title (titleFontSize config.Title)
        ((img.width : Int) - 120) fnt).length := by
      by_contra hcon
      rw [List.getElem?_eq_none (by omega)] at hlT
      simp at hlT
    rw [hy1, hy2]
    generalize (wrapText config.Title (titleFontSize config.Title)
        ((img.width : Int) - 120) fnt).length = n at hi
    rcases hp with ⟨_, h2⟩ | ⟨_, h2⟩ <;> rw [h2] <;> omega

set_option maxRecDepth 100000 in
/-- C15 at the configuration of `main` on a 630 x 1200 image: one title line at size 58,
baseline 400, and two subtitle lines, baselines 532 and 579. -/
theorem addTextWithFontAndWrap_baselines_witness :
    ∃ p : Int, p = 92 ∧
      (∃ d, (addTextWithFontAndWrap (newRGBA 630 1200) mainConfig sampleFont).title[0]?
          = some (some d) ∧ d.text = mainTitle ∧ d.y = 400 + 0 * p) ∧
      (∃ d, (addTextWithFontAndWrap (newRGBA 630 1200) mainConfig sampleFont).subtitle[0]?
          = some (some d) ∧ d.text = "构建高效、可靠的".data ∧ d.y = 400 + 1 * p + 40 + 0 * 47) ∧
      (∃ d, (addTextWithFontAndWrap (newRGBA 630 1200) mainConfig sampleFont).subtitle[1]?
          = some (some d) ∧ d.text = "现代后端服务".data ∧ d.y = 400 + 1 * p + 40 + 1 * 47) := by
  obtain ⟨p, _, hp, ht, hs, _⟩ := addTextWithFontAndWrap_baselines (newRGBA 630 1200)
    mainConfig sampleFont sampleFace sampleFace rfl rfl
  have hsize : titleFontSize mainConfig.Title = 58 := by
    have h : ¬ 20 < strLen mainConfig.Title := by decide
    unfold titleFontSize
    rw [if_neg h]
  have hp92 : p = 92 := by
    rcases hp with ⟨_, h⟩ | ⟨h, _⟩
    · exact h
    · rw [hsize] at h; norm_num at h
  have hn : (wrapText mainConfig.Title (titleFontSize mainConfig.Title)
      (((newRGBA 630 1200).width : Int) - 120) sampleFont) = [mainTitle] := by decide
  have hh : Int.tdiv (((newRGBA 630 1200).height : Nat) : Int) 3 = 400 := by decide
  refine ⟨p, hp92, ?_, ?_, ?_⟩
  · have := ht 0 mainTitle (by rw [hn]; rfl)
    rw [hh] at this
    simpa using this
  · have := hs 0 "构建高效、可靠的".data (by decide)
    rw [hh, hn] at this
    simpa using this
  · have := hs 1 "现代后端服务".data (by decide)
    rw [hh, hn] at this
    simpa using this

/-! ## The interpolated value and the two endpoint values -/

/-- C20 as stated fails: for the last palette pair, whose red values are both 255, the
red value of row 8 on a buffer 1200 pixels high is `255 - 2^-45` after the five roundings,
below both endpoint values, and its truncation is 254. -/
theorem gradient_channel_below_endpoints :
    (colorPairs.get ⟨9, by decide⟩).1.R = 255 ∧ (colorPairs.get ⟨9, by decide⟩).2.R = 255 ∧
      channelValue 255 255 8 1200 = 255 - 2 ^ (-45 : ℤ) ∧
      channelValue 255 255 8 1200
        < (min (255 : Fin 256).val (255 : Fin 256).val : ℚ) ∧
      ((drawRandomGradientBackground (newRGBA 630 1200) ⟨9, by decide⟩).pix 0 8).R = 254 ∧
      ¬ (min (255 : Fin 256).val (255 : Fin 256).val
          ≤ (((drawRandomGradientBackground (newRGBA 630 1200) ⟨9, by decide⟩).pix 0 8).R).val) := by
  have hv : channelValue 255 255 8 1200 = 255 - 2 ^ (-45 : ℤ) := by
    rw [channelValue_255_8_1200]; norm_num
  have hpix : ((drawRandomGradientBackground (newRGBA 630 1200) ⟨9, by decide⟩).pix 0 8).R
      = 254 := by
    rw [drawRandomGradientBackground_eq,
      drawGradient_pix _ _ _ 0 8 (by decide) (by decide)]
    exact channel_255_8_1200
  refine ⟨rfl, rfl, hv, ?_, hpix, ?_⟩
  · rw [hv]
    have h255 : (255 : Fin 256).val = 255 := rfl
    rw [h255]
    norm_num
  · rw [hpix]
    decide

/-- C20, amended: for every pair of 8-bit values (so for every palette pair), every
height and every row `y < H`, the interpolated value computed in `float64` lies between
the smaller value minus `2^-43` and the larger value plus `2^-43`, hence in `[0, 256)`:
its conversion to 8 bits is its integer part, without wrap-around, and lies between the
smaller value minus one and the larger value. -/
theorem channel_between_endpoints (startC endC : Fin 256) (y H : Nat) (hy : y < H) :
    (min startC.val endC.val : ℚ) - 1 / 2 ^ (43 : ℕ) ≤ channelValue startC endC y H ∧
      channelValue startC endC y H ≤ (max startC.val endC.val : ℚ) + 1 / 2 ^ (43 : ℕ) ∧
      0 ≤ channelValue startC endC y H ∧ channelValue startC endC y H < 256 ∧
      ((channel startC endC y H).val : ℤ) = ⌊channelValue startC endC y H⌋ ∧
      min startC.val endC.val ≤ (channel startC endC y H).val + 1 ∧
      (channel startC endC y H).val ≤ max startC.val endC.val := by
  obtain ⟨h1, h2⟩ := channelValue_bounds startC endC y H hy
  obtain ⟨h3, h4⟩ := channelValue_range startC endC y H hy
  obtain ⟨h5, h6⟩ := channel_bounds startC endC y H hy
  exact ⟨h1, h2, h3, h4, channel_val_floor startC endC y H hy, h5, h6⟩

/-- C20, amended, at the red channel of the last palette pair in row 8 of 1200: the
channel is 254, one below the two endpoint values. -/
theorem channel_between_endpoints_witness :
    (channel 255 255 8 1200).val = 254 ∧
      min (255 : Fin 256).val (255 : Fin 256).val ≤ (channel 255 255 8 1200).val + 1 ∧
      (channel 255 255 8 1200).val ≤ max (255 : Fin 256).val (255 : Fin 256).val :=
  ⟨by rw [channel_255_8_1200]; rfl,
    (channel_between_endpoints 255 255 8 1200 (by norm_num)).2.2.2.2.2⟩

end CoverGen
